import Mathlib

set_option maxHeartbeats 1000000

/-!
Verification development for the geopolitical curator pipeline
(`bmain.py`): the tolerant JSON extractor `extract_json_from_text`,
the vote tally / quorum filter of `main`, the cluster resolver built
from the validated Gemini grouping proposals, and the feed split.

Python machine integers are modelled as `Int`/`Nat`; `json.loads` is
modelled by an executable recursive-descent parser `jsonLoads` over
`List Char` that follows Python's JSON grammar for null, booleans,
integers (floats are outside the model), strings with the standard
escapes, arrays and objects, and rejects trailing data; Python `dict`s
with insertion order are modelled as association lists.
-/

/-- Characters that the Lean lexer treats specially are named here once. -/
def bqChar : Char := Char.ofNat 96

def sqChar : Char := Char.ofNat 39

def obChar : Char := Char.ofNat 123

def cbChar : Char := Char.ofNat 125

/-- JSON values as produced by the modelled `json.loads`.  Numbers are
integers: float literals are outside the model (no claim involves them).
Objects are insertion-ordered association lists. -/
inductive Json where
  | null : Json
  | bool : Bool → Json
  | num : Int → Json
  | str : String → Json
  | arr : List Json → Json
  | obj : List (String × Json) → Json

/-- Whitespace accepted by Python's JSON parser between tokens. -/
def wsChar (c : Char) : Bool :=
  c = ' ' ∨ c = '\t' ∨ c = '\n' ∨ c = '\r'

def skipWs (cs : List Char) : List Char := cs.dropWhile wsChar

/-- Value of one of the escape letters after a backslash in a JSON string. -/
def escChar (c : Char) : Option Char :=
  if c = '"' then some '"'
  else if c = '\\' then some '\\'
  else if c = '/' then some '/'
  else if c = 'b' then some (Char.ofNat 8)
  else if c = 'f' then some (Char.ofNat 12)
  else if c = 'n' then some '\n'
  else if c = 'r' then some '\r'
  else if c = 't' then some '\t'
  else none

def hexVal (c : Char) : Option Nat :=
  if '0' ≤ c ∧ c ≤ '9' then some (c.toNat - 48)
  else if 'a' ≤ c ∧ c ≤ 'f' then some (c.toNat - 87)
  else if 'A' ≤ c ∧ c ≤ 'F' then some (c.toNat - 55)
  else none

/-- Body of a JSON string after the opening quote: the scanned characters
(in reverse in `acc`) and the rest after the closing quote.  Raw control
characters are rejected (Python `strict=True`); surrogate escapes are
outside the model. -/
def parseStrAux : List Char → List Char → Option (List Char × List Char)
  | [], _ => none
  | '"' :: rest, acc => some (acc.reverse, rest)
  | '\\' :: 'u' :: h1 :: h2 :: h3 :: h4 :: rest, acc =>
    match hexVal h1, hexVal h2, hexVal h3, hexVal h4 with
    | some a, some b, some c, some d =>
      let v := ((a * 16 + b) * 16 + c) * 16 + d
      if 0xD800 ≤ v ∧ v < 0xE000 then none
      else parseStrAux rest (Char.ofNat v :: acc)
    | _, _, _, _ => none
  | '\\' :: e :: rest, acc =>
    match escChar e with
    | some ec => parseStrAux rest (ec :: acc)
    | none => none
  | ['\\'], _ => none
  | c :: rest, acc =>
    if c.toNat < 32 then none else parseStrAux rest (c :: acc)

def parseStr (cs : List Char) : Option (String × List Char) :=
  (parseStrAux cs []).map (fun p => (String.mk p.1, p.2))

def digitsVal (ds : List Char) : Nat :=
  ds.foldl (fun a c => a * 10 + (c.toNat - 48)) 0

/-- One unsigned integer token.  A leading `0` is the whole token (Python
rejects further digits after it as trailing data). -/
def parseNatTok : List Char → Option (Nat × List Char)
  | [] => none
  | c :: rest =>
    if c = '0' then some (0, rest)
    else if c.isDigit then
      some (digitsVal (c :: rest.takeWhile Char.isDigit), rest.dropWhile Char.isDigit)
    else none

def parseNum : List Char → Option (Json × List Char)
  | '-' :: rest => (parseNatTok rest).map (fun p => (Json.num (-(p.1 : Int)), p.2))
  | cs => (parseNatTok cs).map (fun p => (Json.num (p.1 : Int), p.2))

/-- Drops `pre` from the front of the input, or fails. -/
def dropPre : List Char → List Char → Option (List Char)
  | [], cs => some cs
  | l :: ls, c :: cs => if c = l then dropPre ls cs else none
  | _ :: _, [] => none

mutual

/-- One JSON value starting at the head of the input (leading whitespace
already skipped), returning the value and the unconsumed rest. -/
def parseV : Nat → List Char → Option (Json × List Char)
  | 0, _ => none
  | Nat.succ fuel, cs =>
    match cs with
    | [] => none
    | c :: rest =>
      if c = '"' then (parseStr rest).map (fun p => (Json.str p.1, p.2))
      else if c = '[' then
        match skipWs rest with
        | ']' :: r => some (Json.arr [], r)
        | cs1 => (parseElems fuel cs1).map (fun p => (Json.arr p.1, p.2))
      else if c = obChar then
        let cs1 := skipWs rest
        if cs1.head? = some cbChar then some (Json.obj [], cs1.tail)
        else (parseMembers fuel cs1).map (fun p => (Json.obj p.1, p.2))
      else if c = 't' then (dropPre ['r', 'u', 'e'] rest).map (fun r => (Json.bool true, r))
      else if c = 'f' then (dropPre ['a', 'l', 's', 'e'] rest).map (fun r => (Json.bool false, r))
      else if c = 'n' then (dropPre ['u', 'l', 'l'] rest).map (fun r => (Json.null, r))
      else if c = '-' ∨ c.isDigit then parseNum cs
      else none

/-- Elements of a non-empty array, starting at the first element
(whitespace skipped), consuming through the closing bracket. -/
def parseElems : Nat → List Char → Option (List Json × List Char)
  | 0, _ => none
  | Nat.succ fuel, cs =>
    match parseV fuel cs with
    | none => none
    | some (v, r) =>
      match skipWs r with
      | ',' :: r2 =>
        match parseElems fuel (skipWs r2) with
        | none => none
        | some (l, r3) => some (v :: l, r3)
      | ']' :: r2 => some ([v], r2)
      | _ => none

/-- Members of a non-empty object, starting at the first key
(whitespace skipped), consuming through the closing brace. -/
def parseMembers : Nat → List Char → Option (List (String × Json) × List Char)
  | 0, _ => none
  | Nat.succ fuel, cs =>
    match cs with
    | '"' :: r =>
      match parseStr r with
      | none => none
      | some (k, r1) =>
        match skipWs r1 with
        | ':' :: r2 =>
          match parseV fuel (skipWs r2) with
          | none => none
          | some (v, r3) =>
            match skipWs r3 with
            | ',' :: r4 =>
              match parseMembers fuel (skipWs r4) with
              | none => none
              | some (m, r5) => some ((k, v) :: m, r5)
            | c2 :: r4 => if c2 = cbChar then some ([(k, v)], r4) else none
            | [] => none
        | _ => none
    | _ => none

end

/-- Model of Python `json.loads`: surrounding whitespace is allowed,
trailing non-whitespace data is an error. -/
def jsonLoads (cs : List Char) : Option Json :=
  let c1 := skipWs cs
  match parseV (c1.length + 1) c1 with
  | some (v, r) => if skipWs r = [] then some v else none
  | none => none

/-- Extractor claims quantify over "a valid JSON array" through the
parser itself: a text `s` with `jsonLoads s = some (Json.arr l)` is a
valid JSON array text. -/
def isValidArrayText (s : List Char) (l : List Json) : Prop :=
  jsonLoads s = some (Json.arr l)

/-!
The tolerant extractor `extract_json_from_text` (bmain.py lines 143-208),
modelled step by step: the case-insensitive fence stripping
(`re.sub` of three backticks optionally followed by `json`), Python's
`str.strip`, the direct parse attempt, the bracket scan with string
mode and escape awareness, the trailing-comma repair
(`re.sub` of a comma, whitespace, then a closing bracket), and the
greedy first-`[`-to-last-`]` fallback.
-/

/-- Case-insensitive test for the head of the list (the optional tag
letters of the fence pattern). -/
def headIs (x : Char) : List Char → Bool
  | c :: _ => c.toLower = x
  | [] => false

/-- Peek: do two more backticks follow (completing a fence)? -/
def fence2 : List Char → Bool
  | a :: b :: _ => a = bqChar ∧ b = bqChar
  | _ => false

/-- Model of `re.sub` with the fence pattern (three backticks, then
optionally a case-insensitive `json`), leftmost non-overlapping, the
optional group greedy.  After a fence, the tag letters are matched one
by one; on a mismatch the already-matched letters (never backticks, so
never the start of a new fence) are emitted verbatim and scanning
resumes at the mismatch point, which is exactly where the regex engine
resumes after deleting the three backticks. -/
def stripFences : List Char → List Char
  | [] => []
  | c :: rest =>
    if c = bqChar ∧ fence2 rest then
      match rest with
      | _ :: _ :: rest2 =>
        if headIs 'j' rest2 then
          match rest2 with
          | a :: rest3 =>
            if headIs 's' rest3 then
              match rest3 with
              | b :: rest4 =>
                if headIs 'o' rest4 then
                  match rest4 with
                  | c2 :: rest5 =>
                    if headIs 'n' rest5 then
                      match rest5 with
                      | _ :: rest6 => stripFences rest6
                      | [] => []
                    else a :: b :: c2 :: stripFences rest5
                  | [] => []
                else a :: b :: stripFences rest4
              | [] => []
            else a :: stripFences rest3
          | [] => []
        else stripFences rest2
      | _ => []
    else c :: stripFences rest

/-- Whitespace for Python `str.strip` and for `\s` in the repair regex
(ASCII; exotic unicode spaces are outside the model). -/
def pyWs (c : Char) : Bool :=
  c = ' ' ∨ c = '\t' ∨ c = '\n' ∨ c = '\r' ∨ c = Char.ofNat 11 ∨ c = Char.ofNat 12

def pyStrip (cs : List Char) : List Char :=
  ((cs.dropWhile pyWs).reverse.dropWhile pyWs).reverse

/-- Result of the bracket scan: either the stack emptied and the span
from the first bracket is the candidate, or the loop broke on a
mismatch / ran off the end and control falls through to the greedy
fallback. -/
inductive ScanRes where
  | balanced : List Char → ScanRes
  | noBal : ScanRes

/-- The scan loop of the extractor: `stack` holds expected closing
brackets, `inStr` the active quote character, `esc` the
escape-pending flag, `acc` the characters consumed so far (the
candidate span grows from the first opening bracket). -/
def scanLoop : List Char → List Char → Option Char → Bool → List Char → ScanRes
  | [], _, _, _, _ => ScanRes.noBal
  | c :: rest, stack, some q, esc, acc =>
    if esc then scanLoop rest stack (some q) false (acc ++ [c])
    else if c = '\\' then scanLoop rest stack (some q) true (acc ++ [c])
    else if c = q then scanLoop rest stack none false (acc ++ [c])
    else scanLoop rest stack (some q) false (acc ++ [c])
  | c :: rest, stack, none, esc, acc =>
    if c = '"' ∨ c = sqChar then scanLoop rest stack (some c) esc (acc ++ [c])
    else if c = '[' then scanLoop rest (']' :: stack) none esc (acc ++ [c])
    else if c = obChar then scanLoop rest (cbChar :: stack) none esc (acc ++ [c])
    else if c = ']' ∨ c = cbChar then
      match stack with
      | [] => ScanRes.noBal
      | e :: st =>
        if c = e then
          if st = [] then ScanRes.balanced (acc ++ [c])
          else scanLoop rest st none esc (acc ++ [c])
        else ScanRes.noBal
    else scanLoop rest stack none esc (acc ++ [c])

def closerChar (c : Char) : Bool := c = ']' ∨ c = cbChar

/-- Lookahead for the repair regex: does a run of whitespace followed by
a closing bracket start here? -/
def matchAhead (cs : List Char) : Bool :=
  match cs.dropWhile pyWs with
  | b :: _ => closerChar b
  | [] => false

/-- Model of `re.sub(r',\s*([}\]])', r'\1', _)`: one left-to-right pass
replacing each comma-whitespace-closer match by the closer alone.  The
flag is true while the whitespace of a match is being deleted; the
first non-whitespace character then is the match's closing bracket,
which is emitted, and scanning resumes after it just as the regex
engine resumes after a replacement. -/
def cleanAux : Bool → List Char → List Char
  | _, [] => []
  | true, c :: rest =>
    if pyWs c then cleanAux true rest else c :: cleanAux false rest
  | false, c :: rest =>
    if c = ',' ∧ matchAhead rest then cleanAux true rest
    else c :: cleanAux false rest

def cleanPass (cs : List Char) : List Char := cleanAux false cs

def startBracket (c : Char) : Bool := c = '[' ∨ c = obChar

/-- Splits the text at the first opening bracket (the `start_idx`
search), returning the part before and the part from the bracket. -/
def splitAtStart : List Char → Option (List Char × List Char)
  | [] => none
  | c :: rest =>
    if startBracket c then some ([], c :: rest)
    else (splitAtStart rest).map (fun p => (c :: p.1, p.2))

/-- A candidate span is parsed directly and, failing that, once more
after the trailing-comma repair; if both fail the extractor gives up
(the scan-balanced branch returns `None` without reaching the
fallback). -/
def tryCand (cand : List Char) : Option Json :=
  match jsonLoads cand with
  | some v => some v
  | none => jsonLoads (cleanPass cand)

/-- The greedy fallback: the span from the first `[` to the last `]`
(when the first precedes the last), with the same repair retry. -/
def fallbackSlice (t : List Char) : Option Json :=
  match t.findIdx? (· = '[') with
  | none => none
  | some s =>
    match t.reverse.findIdx? (· = ']') with
    | none => none
    | some rIdx =>
      let e := t.length - 1 - rIdx
      if s < e then tryCand ((t.drop s).take (e + 1 - s)) else none

/-- The extractor body after fence stripping and `strip()`. -/
def extractCore (t : List Char) : Option Json :=
  match jsonLoads t with
  | some v => some v
  | none =>
    match splitAtStart t with
    | none => none
    | some (_, scanPart) =>
      match scanLoop scanPart [] none false [] with
      | ScanRes.balanced cand => tryCand cand
      | ScanRes.noBal => fallbackSlice t

def extractL (cs : List Char) : Option Json :=
  if cs = [] then none else extractCore (pyStrip (stripFences cs))

/-- Model of `extract_json_from_text` (bmain.py lines 143-208). -/
def extract_json_from_text (s : String) : Option Json :=
  extractL s.data

/-!
Vote tally and quorum filter (bmain.py lines 391-418).  `selections_map`
is a Python dict keyed by article id, modelled as an insertion-ordered
association list from id to (provenance labels, count).
-/

/-- The vote a decision entry casts (bmain.py line 397).  Python's
`isinstance(aid, int)` is true for `bool` as well (`True == 1`,
`False == 0`); every other JSON value casts no vote. -/
def voteId : Json → Option Int
  | Json.num k => some k
  | Json.bool b => some (if b then 1 else 0)
  | _ => none

abbrev SelMap := List (Int × List String × Nat)

/-- One accepted vote: create the entry on first sight (at the end of
the insertion order), then append the label and bump the count
(bmain.py lines 398-401). -/
def bumpSel : SelMap → Int → String → SelMap
  | [], aid, label => [(aid, [label], 1)]
  | (k, runs, cnt) :: rest, aid, label =>
    if k = aid then (k, runs ++ [label], cnt + 1) :: rest
    else (k, runs, cnt) :: bumpSel rest aid label

/-- One run's decisions: every in-range integer vote counts, one per
occurrence; everything else is silently dropped (bmain.py lines
396-401). -/
def tallyRun (m : SelMap) (n : Nat) (label : String) (ds : List Json) : SelMap :=
  ds.foldl
    (fun m2 j =>
      match voteId j with
      | some aid => if 0 ≤ aid ∧ aid < n then bumpSel m2 aid label else m2
      | none => m2)
    m

def tallyRuns (runs : List (String × List Json)) (n : Nat) : SelMap :=
  runs.foldl (fun m r => tallyRun m n r.1 r.2) []

def lookupSel : SelMap → Int → Option (List String × Nat)
  | [], _ => none
  | (k, e) :: rest, aid => if k = aid then some e else lookupSel rest aid

def countOf (m : SelMap) (aid : Int) : Nat :=
  ((lookupSel m aid).map (·.2)).getD 0

def runsOf (m : SelMap) (aid : Int) : List String :=
  ((lookupSel m aid).map (·.1)).getD []

/-- The quorum filter (bmain.py lines 410-418): ids whose count reached
2, in `selections_map` iteration order. -/
def acceptedIds (m : SelMap) : List Int :=
  (m.filter (fun e => 2 ≤ e.2.2)).map (·.1)

/-!
Cluster resolver (bmain.py lines 432-453) over validated proposals, and
the output record construction with the feed split (lines 447-474).
-/

structure Proposal where
  cluster_id : Int
  main : Int
  members : List Int
deriving DecidableEq

structure ClusterInfo where
  main : Int
  members : List Int
deriving DecidableEq

/-- Assignment `cluster_map[cid] = v` on an insertion-ordered dict:
replace in place when the key exists, append otherwise. -/
def insertOrReplace : List (Int × ClusterInfo) → Int → ClusterInfo → List (Int × ClusterInfo)
  | [], k, v => [(k, v)]
  | (k2, v2) :: rest, k, v =>
    if k2 = k then (k, v) :: rest else (k2, v2) :: insertOrReplace rest k v

/-- `main = c['main'] if c['main'] in members else (members[0] if members
else None)` (bmain.py line 437). -/
def resolveMain (p : Proposal) : Option Int :=
  if p.main ∈ p.members then some p.main else p.members.head?

/-- First pass of the resolver (bmain.py lines 434-441): build
`cluster_map` and collect `used_ids` (a set, queried only for
membership, so modelled as the concatenation of member lists). -/
def buildClusterMap (ps : List Proposal) : List (Int × ClusterInfo) × List Int :=
  ps.foldl
    (fun acc p =>
      match resolveMain p with
      | none => acc
      | some m => (insertOrReplace acc.1 p.cluster_id ⟨m, p.members⟩, acc.2 ++ p.members))
    ([], [])

/-- `next_cid = max(cluster_map.keys()) + 1 if cluster_map else 0`
(bmain.py line 442). -/
def nextCid (m : List (Int × ClusterInfo)) : Int :=
  match m with
  | [] => 0
  | e :: rest => (rest.foldl (fun a x => max a x.1) e.1) + 1

/-- The full resolver: proposal pass, then the singleton sweep over the
accepted articles in their order (bmain.py lines 443-446). -/
def resolveClusters (ps : List Proposal) (accepted : List Int) : List (Int × ClusterInfo) :=
  let b := buildClusterMap ps
  (accepted.foldl
      (fun st aid =>
        if aid ∈ b.2 then st
        else (insertOrReplace st.1 st.2 ⟨aid, [aid]⟩, st.2 + 1))
      (b.1, nextCid b.1)).1

/-- One emitted output record (bmain.py lines 447-468): the
representative article's id, the cluster id, and the similar-item ids
actually rendered (members other than the representative that resolve
to an accepted article). -/
structure OutRec where
  mainId : Int
  cluster_id : Int
  sims : List Int
deriving DecidableEq

/-- Output construction: a cluster whose representative id is not an
accepted article id is skipped entirely (bmain.py lines 451-453). -/
def buildOutput (m : List (Int × ClusterInfo)) (accepted : List Int) : List OutRec :=
  m.filterMap
    (fun e =>
      if e.2.main ∈ accepted then
        some ⟨e.2.main, e.1,
          (e.2.members.filter (fun x => x ≠ e.2.main)).filter (fun x => x ∈ accepted)⟩
      else none)

def MAX_FEED_ITEMS : Nat := 100

/-- The feed cap and split (bmain.py lines 469-472):
`clustered_items[:MAX_FEED_ITEMS * 2]`, then slices `[:MAX_FEED_ITEMS]`
and `[MAX_FEED_ITEMS:MAX_FEED_ITEMS * 2]`. -/
def feedSplit (items : List OutRec) : List OutRec × List OutRec :=
  let ca := items.take (MAX_FEED_ITEMS * 2)
  (ca.take MAX_FEED_ITEMS, (ca.drop MAX_FEED_ITEMS).take MAX_FEED_ITEMS)

/-!
Failure handling of `call_model` (bmain.py lines 246-255) and
`call_gemini_cluster` (lines 324-360) after the HTTP layer: both
pre-clean a fenced response, run the extractor, and `sys.exit(1)` when
no usable list emerges.
-/

/-- Peek: does the text start with three backticks? -/
def tk3 : List Char → Bool
  | a :: b :: c :: _ => a = bqChar ∧ b = bqChar ∧ c = bqChar
  | _ => false

/-- Peek: does the text start with three backticks then `json`
(case-sensitive, as in `str.replace`)? -/
def tJ7 : List Char → Bool
  | a :: b :: c :: j :: s :: o :: n :: _ =>
    a = bqChar ∧ b = bqChar ∧ c = bqChar ∧ j = 'j' ∧ s = 's' ∧ o = 'o' ∧ n = 'n'
  | _ => false

/-- `str.replace("```json", "")`: leftmost non-overlapping,
case-sensitive. -/
def replTicksJson : List Char → List Char
  | [] => []
  | c :: rest =>
    if tJ7 (c :: rest) then
      match rest with
      | _ :: _ :: _ :: _ :: _ :: _ :: rest7 => replTicksJson rest7
      | _ => []
    else c :: replTicksJson rest

/-- `str.replace("```", "")`: leftmost non-overlapping. -/
def replTicks : List Char → List Char
  | [] => []
  | c :: rest =>
    if tk3 (c :: rest) then
      match rest with
      | _ :: _ :: rest3 => replTicks rest3
      | _ => []
    else c :: replTicks rest

/-- The pre-cleaning both callers apply when a response starts with a
fence: `text.replace("```json", "").replace("```", "").strip()`
(bmain.py lines 246-247 and 324-325). -/
def preClean (cs : List Char) : List Char :=
  if tk3 cs then pyStrip (replTicks (replTicksJson cs)) else cs

inductive ModelOutcome where
  | proceed : List Json → ModelOutcome
  | exit : ModelOutcome

/-- Outcome of `call_model`'s result handling (bmain.py lines 246-255):
a JSON list proceeds as that run's decisions; anything else is
`sys.exit(1)`. -/
def call_model_outcome (content : List Char) : ModelOutcome :=
  match extractL (preClean content) with
  | some (Json.arr l) => ModelOutcome.proceed l
  | _ => ModelOutcome.exit

/-- Python `int(x)` over the values the validator can meet: ints and
bools coerce, numeric strings parse (optional surrounding whitespace
and sign; digit-group underscores are outside the model); everything
else raises. -/
def parsePyInt (cs : List Char) : Option Int :=
  match pyStrip cs with
  | '-' :: ds => if ds ≠ [] ∧ ds.all Char.isDigit then some (-(digitsVal ds : Int)) else none
  | '+' :: ds => if ds ≠ [] ∧ ds.all Char.isDigit then some (digitsVal ds : Int) else none
  | ds => if ds ≠ [] ∧ ds.all Char.isDigit then some (digitsVal ds : Int) else none

def intCoerce : Json → Option Int
  | Json.num k => some k
  | Json.bool b => some (if b then 1 else 0)
  | Json.str s => parsePyInt s.data
  | _ => none

/-- Lookup in a parsed object: Python dicts keep the last binding for a
duplicated key. -/
def objLookup (m : List (String × Json)) (k : String) : Option Json :=
  (m.reverse.find? (fun p => p.1 = k)).map (·.2)

def objHas (m : List (String × Json)) (k : String) : Bool :=
  m.any (fun p => p.1 = k)

/-- The wrapper-key unwrapping (bmain.py lines 329-334): the first of
the well-known keys that is present with a list value. -/
def unwrapKeys : List String → List (String × Json) → Option (List Json)
  | [], _ => none
  | k :: ks, m =>
    match objLookup m k with
    | some (Json.arr l) => some l
    | _ => unwrapKeys ks m

def wrapperKeys : List String := ["clusters", "data", "result", "output"]

def unwrapParsed : Option Json → Option Json
  | some (Json.obj m) =>
    match unwrapKeys wrapperKeys m with
    | some l => some (Json.arr l)
    | none => some (Json.obj m)
  | x => x

/-- `int(x) for x in c['members']`: a list coerces element-wise;
non-iterable values raise (caught by the `except`).  Python would
iterate a string's characters or a dict's keys; both are modelled as
failure (no claim depends on them). -/
def coerceMembers : Json → Option (List Int)
  | Json.arr l => l.mapM intCoerce
  | _ => none

inductive VRes where
  | skip : VRes
  | keep : Proposal → VRes
  | crash : VRes

/-- Validation of one proposal (bmain.py lines 344-354): non-dicts and
dicts without `members`/`main` are skipped; a coercion failure inside
the `try` skips the proposal; a failing `int(c.get("cluster_id", idx))`
happens outside the `try` and crashes the process with an uncaught
exception. -/
def validateOne (idx : Nat) (c : Json) : VRes :=
  match c with
  | Json.obj m =>
    if objHas m "members" ∧ objHas m "main" then
      match objLookup m "members", objLookup m "main" with
      | some mv, some mn =>
        match coerceMembers mv, intCoerce mn with
        | some members, some mainI =>
          match intCoerce ((objLookup m "cluster_id").getD (Json.num idx)) with
          | some cid => VRes.keep ⟨cid, mainI, members⟩
          | none => VRes.crash
        | _, _ => VRes.skip
      | _, _ => VRes.skip
    else VRes.skip
  | _ => VRes.skip

/-- The enumerate loop over the parsed proposals; `none` is the
uncaught-exception crash. -/
def validateAll : Nat → List Json → Option (List Proposal)
  | _, [] => some []
  | idx, c :: rest =>
    match validateOne idx c with
    | VRes.crash => none
    | VRes.skip => validateAll (idx + 1) rest
    | VRes.keep p => (validateAll (idx + 1) rest).map (p :: ·)

inductive ClusterOutcome where
  | ok : List Proposal → ClusterOutcome
  | exit : ClusterOutcome
  | crash : ClusterOutcome
deriving DecidableEq

/-- Outcome of `call_gemini_cluster`'s parsing and validation (bmain.py
lines 324-360): a non-list after unwrapping is `sys.exit(1)`, an empty
validated list is `sys.exit(1)`, a bad `cluster_id` outside the `try`
is an uncaught exception. -/
def call_gemini_cluster_outcome (text : List Char) : ClusterOutcome :=
  match unwrapParsed (extractL (preClean text)) with
  | some (Json.arr l) =>
    match validateAll 0 l with
    | none => ClusterOutcome.crash
    | some [] => ClusterOutcome.exit
    | some ps => ClusterOutcome.ok ps
  | _ => ClusterOutcome.exit

/-!
Proof infrastructure: named shapes used by the theorems below.
-/

/-- The cluster entries the first resolver pass produces when no
cluster id collides: one entry per proposal with members, in order. -/
def propEntries (ps : List Proposal) : List (Int × ClusterInfo) :=
  ps.filterMap (fun p => (resolveMain p).map (fun m => (p.cluster_id, (⟨m, p.members⟩ : ClusterInfo))))

def joinMembers (ps : List Proposal) : List Int :=
  (ps.map (·.members)).flatten

/-- The singleton clusters of the sweep pass: consecutive cluster ids
from `n`. -/
def sgls : List Int → Int → List (Int × ClusterInfo)
  | [], _ => []
  | aid :: rest, n => (n, ⟨aid, [aid]⟩) :: sgls rest (n + 1)

/-- A text has no comma that the repair regex would touch: after every
comma, the whitespace run is followed by a character that exists and is
not a closing bracket. -/
def noBadComma (cs : List Char) : Bool :=
  cs.tails.all
    (fun t =>
      match t with
      | ',' :: b =>
        match (b.dropWhile pyWs).head? with
        | some c => !closerChar c
        | none => false
      | _ => true)

/-- A span whose scan leaves stack, string mode and escape state
untouched (it only grows the candidate), as long as the stack cannot
empty inside it. -/
def ScanNeutral (a : List Char) : Prop :=
  ∀ st acc rest, st ≠ [] →
    scanLoop (a ++ rest) st none false acc = scanLoop rest st none false (acc ++ a)

/-- Characters the scan loop passes over without touching its state. -/
def plainChar (c : Char) : Prop :=
  c ≠ '"' ∧ c ≠ sqChar ∧ c ≠ '[' ∧ c ≠ obChar ∧ c ≠ ']' ∧ c ≠ cbChar

/-- The replacement suffix does not extend a trailing digit run of the
consumed span (the only lookahead the parser performs). -/
def numBoundary (a rnew : List Char) : Prop :=
  ∀ c c2, a.getLast? = some c → c.isDigit = true → rnew.head? = some c2 → c2.isDigit = false

/-- Facts about the span a successful string parse consumed (the body
and closing quote): the parse replays against any suffix and with any
accumulator, and the scan passes the span in string mode, leaving it. -/
def ConsumedS (aS content : List Char) : Prop :=
  (∀ acc r2, parseStrAux (aS ++ r2) acc = some (acc.reverse ++ content, r2)) ∧
  (∀ st acc rest2, scanLoop (aS ++ rest2) st (some '"') false acc
      = scanLoop rest2 st none false (acc ++ aS))

/-- Characters that can start a JSON value in the modelled grammar. -/
def startChar (c : Char) : Prop :=
  c = '"' ∨ c = '[' ∨ c = obChar ∨ c = 't' ∨ c = 'f' ∨ c = 'n' ∨ c = '-' ∨ c.isDigit = true

/-- Facts about the span a successful `parseV` consumed: it replays
with ample fuel against any suffix respecting the digit boundary, it is
scan-neutral, it starts with a value-start character (an opening
bracket when the value is an array), and an array span ends with `]`. -/
def ConsumedV (a : List Char) (v : Json) : Prop :=
  (∀ g r2, a.length < g → numBoundary a r2 → parseV g (a ++ r2) = some (v, r2)) ∧
  ScanNeutral a ∧
  (∃ c rest0, a = c :: rest0 ∧ startChar c) ∧
  (∀ l, v = Json.arr l → a.head? = some '[' ∧ ∃ y, a = y ++ [']'])

/-- Facts about the span a successful `parseElems` consumed (through
the closing bracket): replay, the scan's pop at its final bracket, the
final-bracket decomposition with the trailing-comma replay failure, and
a value-start head. -/
def ConsumedE (a : List Char) (l : List Json) : Prop :=
  (∀ g r2, a.length < g → parseElems g (a ++ r2) = some (l, r2)) ∧
  (∀ st acc rest2, scanLoop (a ++ rest2) (']' :: st) none false acc
      = if st = [] then ScanRes.balanced (acc ++ a)
        else scanLoop rest2 st none false (acc ++ a)) ∧
  (∃ y, a = y ++ [']'] ∧ ScanNeutral y ∧
    ∀ g r2, y.length + 1 < g → parseElems g (y ++ ',' :: ']' :: r2) = none) ∧
  (∃ c rest0, a = c :: rest0 ∧ startChar c)

/-- Facts about the span a successful `parseMembers` consumed (through
the closing brace). -/
def ConsumedM (a : List Char) (m : List (String × Json)) : Prop :=
  (∀ g r2, a.length < g → parseMembers g (a ++ r2) = some (m, r2)) ∧
  (∀ st acc rest2, scanLoop (a ++ rest2) (cbChar :: st) none false acc
      = if st = [] then ScanRes.balanced (acc ++ a)
        else scanLoop rest2 st none false (acc ++ a)) ∧
  (∃ c rest0, a = c :: rest0 ∧ startChar c)

/-!
Tally lemmas and the tally/quorum claims.
-/

theorem bumpSel_countOf (m : SelMap) (aid : Int) (label : String) (aid2 : Int) :
    countOf (bumpSel m aid label) aid2 = countOf m aid2 + (if aid2 = aid then 1 else 0) := by
  induction m with
  | nil =>
    simp only [bumpSel, countOf, lookupSel]
    by_cases h : aid = aid2
    · subst h
      simp
    · have h2 : ¬ aid2 = aid := fun he => h he.symm
      simp [h, h2]
  | cons e rest ih =>
    obtain ⟨k, runs, cnt⟩ := e
    by_cases hk : k = aid
    · subst hk
      rw [show bumpSel ((k, runs, cnt) :: rest) k label
          = (k, runs ++ [label], cnt + 1) :: rest by simp [bumpSel]]
      by_cases h2 : k = aid2
      · subst h2
        simp [countOf, lookupSel]
      · have h3 : ¬ aid2 = k := fun he => h2 he.symm
        simp [countOf, lookupSel, h2, h3]
    · rw [show bumpSel ((k, runs, cnt) :: rest) aid label
          = (k, runs, cnt) :: bumpSel rest aid label by simp [bumpSel, hk]]
      by_cases h2 : k = aid2
      · subst h2
        simp [countOf, lookupSel]
        omega
      · simp only [countOf, lookupSel, h2, if_neg h2]
        exact ih

theorem bumpSel_runsOf (m : SelMap) (aid : Int) (label : String) (aid2 : Int) :
    runsOf (bumpSel m aid label) aid2
      = runsOf m aid2 ++ (if aid2 = aid then [label] else []) := by
  induction m with
  | nil =>
    simp only [bumpSel, runsOf, lookupSel]
    by_cases h : aid = aid2
    · subst h
      simp
    · have h2 : ¬ aid2 = aid := fun he => h he.symm
      simp [h, h2]
  | cons e rest ih =>
    obtain ⟨k, runs, cnt⟩ := e
    by_cases hk : k = aid
    · subst hk
      rw [show bumpSel ((k, runs, cnt) :: rest) k label
          = (k, runs ++ [label], cnt + 1) :: rest by simp [bumpSel]]
      by_cases h2 : k = aid2
      · subst h2
        simp [runsOf, lookupSel]
      · have h3 : ¬ aid2 = k := fun he => h2 he.symm
        simp [runsOf, lookupSel, h2, h3]
    · rw [show bumpSel ((k, runs, cnt) :: rest) aid label
          = (k, runs, cnt) :: bumpSel rest aid label by simp [bumpSel, hk]]
      by_cases h2 : k = aid2
      · subst h2
        simp [runsOf, lookupSel]
        intro he
        exact absurd he hk
      · simp only [runsOf, lookupSel, h2, if_neg h2]
        exact ih

theorem tallyRun_countOf (n : Nat) (label : String) (aid : Int)
    (hlo : 0 ≤ aid) (hhi : aid < n) :
    ∀ (ds : List Json) (m : SelMap),
      countOf (tallyRun m n label ds) aid
        = countOf m aid + ds.countP (fun j => voteId j == some aid) := by
  intro ds
  induction ds with
  | nil => intro m; simp [tallyRun]
  | cons j ds ih =>
    intro m
    rw [show tallyRun m n label (j :: ds)
        = tallyRun (match voteId j with
            | some a => if 0 ≤ a ∧ a < n then bumpSel m a label else m
            | none => m) n label ds from rfl]
    rw [ih, List.countP_cons]
    cases hv : voteId j with
    | none => simp [hv]
    | some a =>
      by_cases ha : a = aid
      · subst ha
        simp only [hv]
        rw [if_pos ⟨hlo, hhi⟩, bumpSel_countOf]
        simp
        omega
      · have hne : ((voteId j == some aid) : Bool) = false := by
          simp [hv]
          omega
        simp only [hv, hne]
        by_cases hr : 0 ≤ a ∧ a < n
        · rw [if_pos hr, bumpSel_countOf]
          have : ¬ aid = a := fun he => ha he.symm
          simp [this]
          exact ha
        · rw [if_neg hr]
          simp
          exact ha

theorem tallyRun_runsOf (n : Nat) (label : String) (aid : Int)
    (hlo : 0 ≤ aid) (hhi : aid < n) :
    ∀ (ds : List Json) (m : SelMap),
      runsOf (tallyRun m n label ds) aid
        = runsOf m aid
          ++ List.replicate (ds.countP (fun j => voteId j == some aid)) label := by
  intro ds
  induction ds with
  | nil => intro m; simp [tallyRun]
  | cons j ds ih =>
    intro m
    rw [show tallyRun m n label (j :: ds)
        = tallyRun (match voteId j with
            | some a => if 0 ≤ a ∧ a < n then bumpSel m a label else m
            | none => m) n label ds from rfl]
    rw [ih, List.countP_cons]
    cases hv : voteId j with
    | none => simp [hv]
    | some a =>
      by_cases ha : a = aid
      · subst ha
        simp only [hv]
        rw [if_pos ⟨hlo, hhi⟩, bumpSel_runsOf]
        simp [hv, List.append_assoc, List.replicate_succ]
      · have hne : ((voteId j == some aid) : Bool) = false := by
          simp [hv]
          omega
        simp only [hv, hne]
        by_cases hr : 0 ≤ a ∧ a < n
        · rw [if_pos hr, bumpSel_runsOf]
          have : ¬ aid = a := fun he => ha he.symm
          simp [this]
          exact ha
        · rw [if_neg hr]
          simp
          exact ha

theorem lookupSel_mem {m : SelMap} {aid : Int} {e : List String × Nat}
    (h : lookupSel m aid = some e) : (aid, e) ∈ m := by
  induction m with
  | nil => exact absurd h (by simp [lookupSel])
  | cons e2 rest ih =>
    obtain ⟨k, e3⟩ := e2
    by_cases hk : k = aid
    · subst hk
      simp [lookupSel] at h
      simp [h]
    · simp only [lookupSel, if_neg hk] at h
      exact List.mem_cons_of_mem _ (ih h)

theorem mem_lookup_of_nodup {m : SelMap} {aid : Int} {e : List String × Nat}
    (hnd : (m.map (·.1)).Nodup) (hm : (aid, e) ∈ m) : lookupSel m aid = some e := by
  induction m with
  | nil => cases hm
  | cons e2 rest ih =>
    obtain ⟨k, e3⟩ := e2
    rcases List.mem_cons.mp hm with h | h
    · obtain ⟨h1, h2⟩ := Prod.mk.injEq .. ▸ h
      subst h1
      subst h2
      simp [lookupSel]
    · have hk : ¬ k = aid := by
        intro hkk
        subst hkk
        have : k ∈ rest.map (·.1) := List.mem_map.mpr ⟨(k, e), h, rfl⟩
        exact (List.nodup_cons.mp hnd).1 this
      simp only [lookupSel, if_neg hk]
      exact ih (List.nodup_cons.mp hnd).2 h

theorem acceptedIds_spec {m : SelMap} {aid : Int} :
    aid ∈ acceptedIds m ↔ ∃ e, (aid, e) ∈ m ∧ 2 ≤ e.2 := by
  simp only [acceptedIds, List.mem_map, List.mem_filter]
  constructor
  · rintro ⟨⟨k, e⟩, ⟨hmem, hcnt⟩, rfl⟩
    exact ⟨e, hmem, by simpa using hcnt⟩
  · rintro ⟨e, hmem, hcnt⟩
    exact ⟨(aid, e), ⟨hmem, by simpa using hcnt⟩, rfl⟩

/-- Claim C4: with the hard-coded quorum threshold 2 of bmain.py line
412, an id whose tallied count is exactly 1 is excluded from the
accepted set and an id whose count is at least 2 is included,
regardless of its provenance labels; and for three runs voting ids
5 and 6, then 5, then 6 and 7, the accepted set is exactly [5, 6]. -/
theorem claim_C4 :
    (∀ (m : SelMap) (aid : Int) (runs : List String) (cnt : Nat),
        (m.map (·.1)).Nodup →
        lookupSel m aid = some (runs, cnt) →
        ((cnt = 1 → aid ∉ acceptedIds m) ∧ (2 ≤ cnt → aid ∈ acceptedIds m))) ∧
    acceptedIds
        (tallyRuns
          [("Batch1-Run1", [Json.num 5, Json.num 6]),
           ("Batch1-Run2", [Json.num 5]),
           ("Batch1-Run3", [Json.num 6, Json.num 7])] 8)
      = [5, 6] := by
  constructor
  · intro m aid runs cnt hnd hl
    constructor
    · intro h1 hacc
      obtain ⟨e, hmem, h2⟩ := acceptedIds_spec.mp hacc
      have hle := mem_lookup_of_nodup hnd hmem
      rw [hl] at hle
      have he : (runs, cnt) = e := by injection hle
      rw [← he] at h2
      simp at h2
      omega
    · intro h2
      exact acceptedIds_spec.mpr ⟨(runs, cnt), lookupSel_mem hl, by simpa using h2⟩
  · rfl

/-- Witness for claim C4: in the three-run scenario id 7 has count
exactly 1 and is excluded from the accepted set. -/
theorem claim_C4_witness :
    7 ∉ acceptedIds
        (tallyRuns
          [("Batch1-Run1", [Json.num 5, Json.num 6]),
           ("Batch1-Run2", [Json.num 5]),
           ("Batch1-Run3", [Json.num 6, Json.num 7])] 8) :=
  (claim_C4.1
      (tallyRuns
        [("Batch1-Run1", [Json.num 5, Json.num 6]),
         ("Batch1-Run2", [Json.num 5]),
         ("Batch1-Run3", [Json.num 6, Json.num 7])] 8)
      7 ["Batch1-Run3"] 1 (by decide) rfl).1 rfl

/-- Claim C9: one run's decision list increments an in-range id's count
once per occurrence and appends the run's provenance label once per
occurrence, so a single run that lists the same id twice reaches the
threshold alone: with one run voting [7, 7] the accepted set is [7]. -/
theorem claim_C9 :
    (∀ (m : SelMap) (n : Nat) (label : String) (ds : List Json) (aid : Int),
        0 ≤ aid → aid < n →
        countOf (tallyRun m n label ds) aid
            = countOf m aid + ds.countP (fun j => voteId j == some aid) ∧
        runsOf (tallyRun m n label ds) aid
            = runsOf m aid
              ++ List.replicate (ds.countP (fun j => voteId j == some aid)) label) ∧
    acceptedIds (tallyRuns [("Batch1-Run1", [Json.num 7, Json.num 7])] 8) = [7] ∧
    countOf (tallyRuns [("Batch1-Run1", [Json.num 7, Json.num 7])] 8) 7 = 2 := by
  refine ⟨?_, rfl, rfl⟩
  intro m n label ds aid hlo hhi
  exact ⟨tallyRun_countOf n label aid hlo hhi ds m, tallyRun_runsOf n label aid hlo hhi ds m⟩

/-- Witness for claim C9: a single run listing id 3 twice in an
8-article universe gives id 3 a count of two occurrences. -/
theorem claim_C9_witness :
    countOf (tallyRun [] 8 "Batch1-Run1" [Json.num 3, Json.num 3]) 3
        = countOf ([] : SelMap) 3
          + ([Json.num 3, Json.num 3].countP (fun j => voteId j == some 3)) ∧
    runsOf (tallyRun [] 8 "Batch1-Run1" [Json.num 3, Json.num 3]) 3
        = runsOf ([] : SelMap) 3
          ++ List.replicate
              (([Json.num 3, Json.num 3]).countP (fun j => voteId j == some 3))
              "Batch1-Run1" :=
  claim_C9.1 [] 8 "Batch1-Run1" [Json.num 3, Json.num 3] 3 (by decide) (by decide)

/-!
Failure-propagation claims for `call_model` and `call_gemini_cluster`.
-/

/-- Claim C2, counterexample: a run whose response text yields no
structured value does not contribute zero votes and continue — both
`call_model` and `call_gemini_cluster` exit the whole program. -/
theorem claim_C2_counterexample :
    call_model_outcome "hello".data = ModelOutcome.exit ∧
    call_gemini_cluster_outcome "hello".data = ClusterOutcome.exit := by
  exact ⟨rfl, rfl⟩

/-- Claim C2 as amended: an extraction failure is fatal, not locally
recoverable.  Whenever `call_model`'s response text does not extract to
a JSON list, `call_model` exits the process; whenever the grouping
response does not extract (even after wrapper unwrapping) to a JSON
list, or validates to an empty proposal list, `call_gemini_cluster`
exits the process instead of falling back to singleton clusters. -/
theorem claim_C2 :
    (∀ content : List Char,
        (∀ l, extractL (preClean content) ≠ some (Json.arr l)) →
        call_model_outcome content = ModelOutcome.exit) ∧
    (∀ text : List Char,
        (∀ l, unwrapParsed (extractL (preClean text)) ≠ some (Json.arr l)) →
        call_gemini_cluster_outcome text = ClusterOutcome.exit) ∧
    (∀ (text : List Char) (l : List Json),
        unwrapParsed (extractL (preClean text)) = some (Json.arr l) →
        validateAll 0 l = some [] →
        call_gemini_cluster_outcome text = ClusterOutcome.exit) := by
  refine ⟨?_, ?_, ?_⟩
  · intro content h
    unfold call_model_outcome
    cases hx : extractL (preClean content) with
    | none => rfl
    | some v =>
      cases v with
      | arr l => exact absurd hx (h l)
      | null => rfl
      | bool b => rfl
      | num k => rfl
      | str s => rfl
      | obj m => rfl
  · intro text h
    unfold call_gemini_cluster_outcome
    cases hx : unwrapParsed (extractL (preClean text)) with
    | none => rfl
    | some v =>
      cases v with
      | arr l => exact absurd hx (h l)
      | null => rfl
      | bool b => rfl
      | num k => rfl
      | str s => rfl
      | obj m => rfl
  · intro text l hx hv
    unfold call_gemini_cluster_outcome
    rw [hx]
    simp [hv]

/-- Witness for claim C2: a prose response exits `call_model`, and an
empty grouping array validates to no proposals and exits
`call_gemini_cluster`. -/
theorem claim_C2_witness :
    call_model_outcome "no json here".data = ModelOutcome.exit ∧
    call_gemini_cluster_outcome "[]".data = ClusterOutcome.exit := by
  constructor
  · exact claim_C2.1 "no json here".data
      (fun l hl => by
        rw [show extractL (preClean "no json here".data) = none from rfl] at hl
        exact Option.noConfusion hl)
  · exact claim_C2.2.2 "[]".data [] rfl rfl

/-!
Cluster-resolver claims.
-/

/-- Claim C1, counterexample: with overlapping validated proposals the
resolver does not partition the accepted set — id 1 (accepted) ends up
in the member lists of two clusters. -/
theorem claim_C1_counterexample :
    ((1 : Int) ∈ ([0, 1, 2, 3] : List Int)) ∧
    (resolveClusters [⟨0, 0, [0, 1]⟩, ⟨1, 1, [1, 2]⟩] [0, 1, 2, 3]).countP
        (fun e => decide ((1 : Int) ∈ e.2.members)) = 2 := by
  exact ⟨by decide, rfl⟩

/-- Claim C3, counterexample: on accepted ids 0-3 with proposals
rep 0 members [0,1] and rep 1 members [1,2], the emitted representative
ids are [0, 1, 3], not the [0, 2, 3] the claim predicts (the second
proposal is kept whole, not stripped of claimed member 1 and dropped). -/
theorem claim_C3_counterexample :
    (buildOutput (resolveClusters [⟨0, 0, [0, 1]⟩, ⟨1, 1, [1, 2]⟩] [0, 1, 2, 3])
        [0, 1, 2, 3]).map (·.mainId) = [0, 1, 3] ∧
    ([0, 1, 3] : List Int) ≠ [0, 2, 3] := by
  exact ⟨rfl, by decide⟩

/-- Claim C3 as amended: members are not claimed greedily — every
validated proposal keeps its full member list, overlapping or not, and
only ids in no proposal at all get singleton clusters.  In the
scenario the map is cluster 0 = (rep 0, [0,1]), cluster 1 =
(rep 1, [1,2]), cluster 2 = singleton 3, and records are emitted for
representatives 0, 1 and 3. -/
theorem claim_C3 :
    resolveClusters [⟨0, 0, [0, 1]⟩, ⟨1, 1, [1, 2]⟩] [0, 1, 2, 3]
        = [(0, ⟨0, [0, 1]⟩), (1, ⟨1, [1, 2]⟩), (2, ⟨3, [3]⟩)] ∧
    buildOutput (resolveClusters [⟨0, 0, [0, 1]⟩, ⟨1, 1, [1, 2]⟩] [0, 1, 2, 3])
        [0, 1, 2, 3]
      = [⟨0, 0, [1]⟩, ⟨1, 1, [2]⟩, ⟨3, 2, []⟩] := by
  exact ⟨rfl, rfl⟩

/-- Claim C8: a validated proposal whose resolved representative is not
an accepted id is dropped at output construction, but its members were
already marked used, so an accepted member gets neither a cluster
record nor a singleton: with accepted ids [0] and the single proposal
rep 5, members [5, 0], the cluster map holds the cluster, id 0 is in
the used set, and the emitted output is empty. -/
theorem claim_C8 :
    resolveClusters [⟨0, 5, [5, 0]⟩] [0] = [(0, ⟨5, [5, 0]⟩)] ∧
    (buildClusterMap [⟨0, 5, [5, 0]⟩]).2 = [5, 0] ∧
    buildOutput (resolveClusters [⟨0, 5, [5, 0]⟩] [0]) [0] = [] := by
  exact ⟨rfl, rfl, rfl⟩

/-- Claim C10: the emitted output is capped at `2 * MAX_FEED_ITEMS =
200` records — the first 100 in cluster-map order go to the primary
feed, the next 100 to the overflow feed, and everything beyond 200 is
dropped from both. -/
theorem claim_C10 (items : List OutRec) :
    (feedSplit items).1 = items.take MAX_FEED_ITEMS ∧
    (feedSplit items).2 = (items.drop MAX_FEED_ITEMS).take MAX_FEED_ITEMS ∧
    (feedSplit items).1 ++ (feedSplit items).2 = items.take (MAX_FEED_ITEMS * 2) ∧
    MAX_FEED_ITEMS * 2 = 200 := by
  refine ⟨?_, ?_, ?_, rfl⟩
  · show (items.take (MAX_FEED_ITEMS * 2)).take MAX_FEED_ITEMS = items.take MAX_FEED_ITEMS
    rw [List.take_take]
    norm_num [MAX_FEED_ITEMS]
  · show ((items.take (MAX_FEED_ITEMS * 2)).drop MAX_FEED_ITEMS).take MAX_FEED_ITEMS
        = (items.drop MAX_FEED_ITEMS).take MAX_FEED_ITEMS
    rw [List.drop_take, List.take_take]
    norm_num [MAX_FEED_ITEMS]
  · show (items.take (MAX_FEED_ITEMS * 2)).take MAX_FEED_ITEMS
        ++ ((items.take (MAX_FEED_ITEMS * 2)).drop MAX_FEED_ITEMS).take MAX_FEED_ITEMS
        = items.take (MAX_FEED_ITEMS * 2)
    have hlen : ((items.take (MAX_FEED_ITEMS * 2)).drop MAX_FEED_ITEMS).length
        ≤ MAX_FEED_ITEMS := by
      simp [MAX_FEED_ITEMS]
    rw [List.take_of_length_le hlen]
    exact List.take_append_drop _ _

/-!
Structure of the resolver under well-behaved proposals, for the amended
partition claim.
-/

theorem resolveMain_none_iff {p : Proposal} : resolveMain p = none ↔ p.members = [] := by
  unfold resolveMain
  by_cases h : p.main ∈ p.members
  · simp only [if_pos h]
    constructor
    · intro hx
      exact Option.noConfusion hx
    · intro hx
      rw [hx] at h
      cases h
  · simp only [if_neg h]
    exact List.head?_eq_none_iff

theorem insertOrReplace_append {m : List (Int × ClusterInfo)} {k : Int} {v : ClusterInfo}
    (h : k ∉ m.map (·.1)) : insertOrReplace m k v = m ++ [(k, v)] := by
  induction m with
  | nil => rfl
  | cons e rest ih =>
    obtain ⟨k2, v2⟩ := e
    have hk : ¬ k2 = k := by
      intro hx
      exact h (by simp [hx])
    simp only [insertOrReplace, if_neg hk, List.cons_append, List.cons.injEq, true_and]
    exact ih (fun hx => h (by simp at hx ⊢; right; exact hx))

theorem buildClusterMap_go (ps : List Proposal) :
    ∀ (m0 : List (Int × ClusterInfo)) (u0 : List Int),
      (ps.map (·.cluster_id)).Nodup →
      (∀ p ∈ ps, p.cluster_id ∉ m0.map (·.1)) →
      ps.foldl
          (fun acc p =>
            match resolveMain p with
            | none => acc
            | some m => (insertOrReplace acc.1 p.cluster_id ⟨m, p.members⟩, acc.2 ++ p.members))
          (m0, u0)
        = (m0 ++ propEntries ps, u0 ++ joinMembers ps) := by
  induction ps with
  | nil => intro m0 u0 _ _; simp [propEntries, joinMembers]
  | cons p ps ih =>
    intro m0 u0 hnd hfresh
    rw [List.foldl_cons]
    cases hr : resolveMain p with
    | none =>
      have hmem : p.members = [] := resolveMain_none_iff.mp hr
      rw [show propEntries (p :: ps) = propEntries ps by simp [propEntries, hr]]
      rw [show joinMembers (p :: ps) = joinMembers ps by
        simp [joinMembers, hmem]]
      simp only [hr]
      exact ih m0 u0 (by simpa using (List.nodup_cons.mp (by simpa using hnd)).2)
        (fun q hq => hfresh q (List.mem_cons_of_mem _ hq))
    | some mm =>
      simp only [hr]
      rw [insertOrReplace_append (hfresh p (List.mem_cons_self _ _))]
      rw [ih (m0 ++ [(p.cluster_id, (⟨mm, p.members⟩ : ClusterInfo))]) (u0 ++ p.members)
        (by simpa using (List.nodup_cons.mp (by simpa using hnd)).2)
        (by
          intro q hq
          simp only [List.map_append, List.mem_append]
          rintro (hx | hx)
          · exact hfresh q (List.mem_cons_of_mem _ hq) hx
          · simp at hx
            have : p.cluster_id ∉ ps.map (·.cluster_id) :=
              (List.nodup_cons.mp (by simpa using hnd)).1
            exact this (hx ▸ List.mem_map.mpr ⟨q, hq, rfl⟩))]
      rw [show propEntries (p :: ps) = (p.cluster_id, (⟨mm, p.members⟩ : ClusterInfo)) :: propEntries ps by
        simp [propEntries, hr]]
      rw [show joinMembers (p :: ps) = p.members ++ joinMembers ps by simp [joinMembers]]
      simp

theorem buildClusterMap_eq (ps : List Proposal)
    (hc : (ps.map (·.cluster_id)).Nodup) :
    buildClusterMap ps = (propEntries ps, joinMembers ps) := by
  unfold buildClusterMap
  have := buildClusterMap_go ps [] [] hc (by intro p _ h; cases h)
  simpa using this

theorem le_foldl_max (rest : List (Int × ClusterInfo)) :
    ∀ a : Int,
      a ≤ rest.foldl (fun b p => max b p.1) a ∧
      ∀ x ∈ rest, x.1 ≤ rest.foldl (fun b p => max b p.1) a := by
  induction rest with
  | nil => intro a; exact ⟨le_refl a, by intro x hx; cases hx⟩
  | cons p rest ih =>
    intro a
    rw [List.foldl_cons]
    obtain ⟨h1, h2⟩ := ih (max a p.1)
    refine ⟨le_trans (le_max_left a p.1) h1, ?_⟩
    intro x hx
    rcases List.mem_cons.mp hx with hx | hx
    · subst hx
      exact le_trans (le_max_right a x.1) h1
    · exact h2 x hx

theorem lt_nextCid (m : List (Int × ClusterInfo)) :
    ∀ k ∈ m.map (·.1), k < nextCid m := by
  intro k hk
  cases m with
  | nil => simp at hk
  | cons e rest =>
    have hx : k = e.1 ∨ k ∈ rest.map (·.1) := by simpa using hk
    have h1 := (le_foldl_max rest e.1).1
    rcases hx with hx | hx
    · subst hx
      simp only [nextCid]
      omega
    · obtain ⟨x, hxm, hxe⟩ := List.mem_map.mp hx
      have h2 := (le_foldl_max rest e.1).2 x hxm
      simp only [nextCid]
      rw [← hxe]
      omega

theorem sweep_go (used : List Int) :
    ∀ (acc : List Int) (m0 : List (Int × ClusterInfo)) (n0 : Int),
      (∀ k ∈ m0.map (·.1), k < n0) →
      acc.foldl
          (fun st aid =>
            if aid ∈ used then st
            else (insertOrReplace st.1 st.2 ⟨aid, [aid]⟩, st.2 + 1))
          (m0, n0)
        = (m0 ++ sgls (acc.filter (fun aid => decide (¬ aid ∈ used))) n0,
           n0 + (acc.filter (fun aid => decide (¬ aid ∈ used))).length) := by
  intro acc
  induction acc with
  | nil => intro m0 n0 _; simp [sgls]
  | cons aid rest ih =>
    intro m0 n0 hb
    rw [List.foldl_cons]
    by_cases h : aid ∈ used
    · dsimp only
      rw [if_pos h]
      rw [ih m0 n0 hb]
      simp [List.filter_cons, h]
    · dsimp only
      rw [if_neg h]
      have hfresh : n0 ∉ m0.map (·.1) := by
        intro hx
        exact absurd (hb n0 hx) (lt_irrefl n0)
      rw [insertOrReplace_append hfresh]
      rw [ih (m0 ++ [(n0, (⟨aid, [aid]⟩ : ClusterInfo))]) (n0 + 1)
        (by
          intro k hk
          simp only [List.map_append, List.mem_append] at hk
          rcases hk with hk | hk
          · have := hb k hk
            omega
          · simp at hk
            omega)]
      rw [show (aid :: rest).filter (fun a => decide (¬ a ∈ used))
          = aid :: rest.filter (fun a => decide (¬ a ∈ used)) by simp [List.filter_cons, h]]
      simp only [sgls, List.append_assoc, List.singleton_append, List.length_cons]
      congr 1
      push_cast
      omega

theorem resolveClusters_eq (ps : List Proposal) (accepted : List Int)
    (hc : (ps.map (·.cluster_id)).Nodup) :
    resolveClusters ps accepted
      = propEntries ps
        ++ sgls (accepted.filter (fun aid => decide (¬ aid ∈ joinMembers ps)))
            (nextCid (propEntries ps)) := by
  unfold resolveClusters
  rw [buildClusterMap_eq ps hc]
  dsimp only
  rw [sweep_go (joinMembers ps) accepted (propEntries ps) (nextCid (propEntries ps))
    (lt_nextCid (propEntries ps))]

theorem mem_joinMembers {ps : List Proposal} {aid : Int} :
    aid ∈ joinMembers ps ↔ ∃ p ∈ ps, aid ∈ p.members := by
  simp [joinMembers, List.mem_flatten]

theorem countP_propEntries (aid : Int) :
    ∀ ps : List Proposal,
      ps.Pairwise (fun p q => ∀ x ∈ p.members, x ∉ q.members) →
      (propEntries ps).countP (fun e => decide (aid ∈ e.2.members))
        = if aid ∈ joinMembers ps then 1 else 0 := by
  intro ps
  induction ps with
  | nil => intro _; simp [propEntries, joinMembers]
  | cons p ps ih =>
    intro hd
    obtain ⟨hrel, htail⟩ := List.pairwise_cons.mp hd
    cases hr : resolveMain p with
    | none =>
      have hmem : p.members = [] := resolveMain_none_iff.mp hr
      rw [show propEntries (p :: ps) = propEntries ps by simp [propEntries, hr]]
      rw [ih htail]
      rw [show joinMembers (p :: ps) = joinMembers ps by simp [joinMembers, hmem]]
    | some mm =>
      rw [show propEntries (p :: ps)
          = (p.cluster_id, (⟨mm, p.members⟩ : ClusterInfo)) :: propEntries ps by
        simp [propEntries, hr]]
      rw [List.countP_cons, ih htail]
      rw [show joinMembers (p :: ps) = p.members ++ joinMembers ps by simp [joinMembers]]
      by_cases ha : aid ∈ p.members
      · have hnj : aid ∉ joinMembers ps := by
          intro hx
          obtain ⟨q, hq, hqa⟩ := mem_joinMembers.mp hx
          exact hrel q hq aid ha hqa
        simp [ha, hnj]
      · simp only [List.mem_append]
        by_cases hj : aid ∈ joinMembers ps
        · simp [ha, hj]
        · simp [ha, hj]

theorem countP_sgls (aid : Int) :
    ∀ (xs : List Int), xs.Nodup → ∀ n : Int,
      (sgls xs n).countP (fun e => decide (aid ∈ e.2.members))
        = if aid ∈ xs then 1 else 0 := by
  intro xs
  induction xs with
  | nil => intro _ n; simp [sgls]
  | cons x xs ih =>
    intro hnd n
    obtain ⟨hx, htail⟩ := List.nodup_cons.mp hnd
    rw [show sgls (x :: xs) n = (n, (⟨x, [x]⟩ : ClusterInfo)) :: sgls xs (n + 1) from rfl]
    rw [List.countP_cons, ih htail (n + 1)]
    by_cases ha : aid = x
    · subst ha
      simp [hx]
    · simp [ha, List.mem_cons]

theorem mem_propEntries {ps : List Proposal} {e : Int × ClusterInfo}
    (he : e ∈ propEntries ps) : ∃ p ∈ ps, e.2.members = p.members := by
  obtain ⟨p, hp, hpe⟩ := List.mem_filterMap.mp he
  cases hr : resolveMain p with
  | none => rw [hr] at hpe; cases hpe
  | some mm =>
    rw [hr] at hpe
    simp at hpe
    exact ⟨p, hp, by rw [← hpe]⟩

theorem mem_sgls {e : Int × ClusterInfo} :
    ∀ {xs : List Int} {n : Int}, e ∈ sgls xs n → ∃ aid ∈ xs, e.2.members = [aid] := by
  intro xs
  induction xs with
  | nil => intro n he; cases he
  | cons x xs ih =>
    intro n he
    rcases List.mem_cons.mp he with hx | hx
    · subst hx
      exact ⟨x, List.mem_cons_self _ _, rfl⟩
    · obtain ⟨aid, ha, hm⟩ := ih hx
      exact ⟨aid, List.mem_cons_of_mem _ ha, hm⟩

/-- Claim C1 as amended: the resolver's cluster map partitions the
accepted id set provided the validated proposals are pairwise
member-disjoint, have distinct cluster ids, and draw all members from
the accepted set (and accepted ids are distinct, as dict keys are):
every accepted id then lies in exactly one cluster's member list, and
every member of every cluster is accepted.  Without the disjointness
condition the code violates the invariant (see the counterexample):
members are never re-claimed, so overlapping proposals put an id into
two clusters. -/
theorem claim_C1 (ps : List Proposal) (accepted : List Int)
    (hd : ps.Pairwise (fun p q => ∀ x ∈ p.members, x ∉ q.members))
    (hc : (ps.map (·.cluster_id)).Nodup)
    (hm : ∀ p ∈ ps, ∀ x ∈ p.members, x ∈ accepted)
    (ha : accepted.Nodup) :
    (∀ aid ∈ accepted,
        (resolveClusters ps accepted).countP (fun e => decide (aid ∈ e.2.members)) = 1) ∧
    (∀ e ∈ resolveClusters ps accepted, ∀ x ∈ e.2.members, x ∈ accepted) := by
  rw [resolveClusters_eq ps accepted hc]
  constructor
  · intro aid haid
    rw [List.countP_append]
    rw [countP_propEntries aid ps hd]
    rw [countP_sgls aid _ (ha.filter _) (nextCid (propEntries ps))]
    by_cases hu : aid ∈ joinMembers ps
    · have : aid ∉ accepted.filter (fun a => decide (¬ a ∈ joinMembers ps)) := by
        intro hx
        have := (List.mem_filter.mp hx).2
        simp at this
        exact this hu
      simp [hu, this]
    · have : aid ∈ accepted.filter (fun a => decide (¬ a ∈ joinMembers ps)) :=
        List.mem_filter.mpr ⟨haid, by simpa using hu⟩
      simp [hu, this]
      exact haid
  · intro e he x hx
    rcases List.mem_append.mp he with he | he
    · obtain ⟨p, hp, hpe⟩ := mem_propEntries he
      exact hm p hp x (hpe ▸ hx)
    · obtain ⟨aid, haid, hme⟩ := mem_sgls he
      have : aid ∈ accepted := (List.mem_filter.mp haid).1
      rw [hme] at hx
      rcases List.mem_singleton.mp hx with rfl
      exact this

/-- Witness for claim C1: two disjoint proposals over accepted ids
0-4 — id 2 lies in exactly one cluster's member list. -/
theorem claim_C1_witness :
    (resolveClusters [⟨0, 0, [0, 1]⟩, ⟨1, 2, [2, 3]⟩] [0, 1, 2, 3, 4]).countP
        (fun e => decide ((2 : Int) ∈ e.2.members)) = 1 :=
  (claim_C1 [⟨0, 0, [0, 1]⟩, ⟨1, 2, [2, 3]⟩] [0, 1, 2, 3, 4]
      (by decide) (by decide) (by decide) (by decide)).1 2 (by decide)

/-!
Character-class and scan-step helpers for the extractor proofs.
-/

theorem startChar_not_ws {c : Char} (h : startChar c) : wsChar c = false := by
  rcases h with rfl | rfl | rfl | rfl | rfl | rfl | rfl | hd
  · decide
  · decide
  · decide
  · decide
  · decide
  · decide
  · decide
  · simp only [wsChar]
    rw [decide_eq_false_iff_not]
    intro h2
    rcases h2 with h2 | h2 | h2 | h2 <;> rw [h2] at hd <;> exact absurd hd (by decide)

theorem startChar_not_pyWs {c : Char} (h : startChar c) : pyWs c = false := by
  rcases h with rfl | rfl | rfl | rfl | rfl | rfl | rfl | hd
  · decide
  · decide
  · decide
  · decide
  · decide
  · decide
  · decide
  · simp only [pyWs]
    rw [decide_eq_false_iff_not]
    intro h2
    rcases h2 with h2 | h2 | h2 | h2 | h2 | h2 <;> rw [h2] at hd <;> exact absurd hd (by decide)

theorem startChar_ne_rb {c : Char} (h : startChar c) : c ≠ ']' := by
  rcases h with rfl | rfl | rfl | rfl | rfl | rfl | rfl | hd
  · decide
  · decide
  · decide
  · decide
  · decide
  · decide
  · decide
  · intro h2
    rw [h2] at hd
    exact absurd hd (by decide)

theorem startChar_ne_comma {c : Char} (h : startChar c) : c ≠ ',' := by
  rcases h with rfl | rfl | rfl | rfl | rfl | rfl | rfl | hd
  · decide
  · decide
  · decide
  · decide
  · decide
  · decide
  · decide
  · intro h2
    rw [h2] at hd
    exact absurd hd (by decide)

theorem wsChar_plain {c : Char} (h : wsChar c = true) : plainChar c := by
  simp only [wsChar] at h
  rw [decide_eq_true_iff] at h
  rcases h with rfl | rfl | rfl | rfl <;>
    exact ⟨by decide, by decide, by decide, by decide, by decide, by decide⟩

theorem digit_plain {c : Char} (h : c.isDigit = true) : plainChar c := by
  refine ⟨?_, ?_, ?_, ?_, ?_, ?_⟩ <;> (intro h3; rw [h3] at h; exact absurd h (by decide))

theorem scan_plain {c : Char} (hc : plainChar c) (rest st acc : List Char) (esc : Bool) :
    scanLoop (c :: rest) st none esc acc = scanLoop rest st none esc (acc ++ [c]) := by
  obtain ⟨h1, h2, h3, h4, h5, h6⟩ := hc
  simp [scanLoop, h1, h2, h3, h4, h5, h6]

theorem ScanNeutral_nil : ScanNeutral [] := by
  intro st acc rest _
  simp

theorem ScanNeutral_cons_plain {c : Char} {a : List Char}
    (hc : plainChar c) (ha : ScanNeutral a) : ScanNeutral (c :: a) := by
  intro st acc rest h
  rw [show (c :: a) ++ rest = c :: (a ++ rest) from rfl, scan_plain hc, ha st (acc ++ [c]) rest h]
  simp

theorem ScanNeutral_append {a b : List Char} (ha : ScanNeutral a) (hb : ScanNeutral b) :
    ScanNeutral (a ++ b) := by
  intro st acc rest h
  rw [List.append_assoc, ha st acc (b ++ rest) h, hb st (acc ++ a) rest h, List.append_assoc]

theorem ScanNeutral_of_plain {a : List Char} (h : ∀ c ∈ a, plainChar c) : ScanNeutral a := by
  induction a with
  | nil => exact ScanNeutral_nil
  | cons c rest ih =>
    exact ScanNeutral_cons_plain (h c (List.mem_cons_self _ _))
      (ih (fun c2 hc2 => h c2 (List.mem_cons_of_mem _ hc2)))

theorem ScanNeutral_ws {a : List Char} (h : ∀ c ∈ a, wsChar c = true) : ScanNeutral a :=
  ScanNeutral_of_plain (fun c hc => wsChar_plain (h c hc))

theorem skipWs_ws_append {a b : List Char} (h : ∀ c ∈ a, wsChar c = true) :
    skipWs (a ++ b) = skipWs b := by
  induction a with
  | nil => rfl
  | cons c rest ih =>
    rw [List.cons_append, skipWs, List.dropWhile_cons, if_pos (h c (List.mem_cons_self _ _))]
    exact ih (fun c2 hc2 => h c2 (List.mem_cons_of_mem _ hc2))

theorem skipWs_cons_of_not {c : Char} {rest : List Char} (h : wsChar c = false) :
    skipWs (c :: rest) = c :: rest := by
  rw [skipWs, List.dropWhile_cons, if_neg (by simp [h])]

theorem skipWs_split (cs : List Char) : cs = cs.takeWhile wsChar ++ skipWs cs :=
  (List.takeWhile_append_dropWhile ..).symm

theorem mem_takeWhile_ws {cs : List Char} {c : Char} (h : c ∈ cs.takeWhile wsChar) :
    wsChar c = true :=
  List.mem_takeWhile_imp h

theorem parseV_rb_none (f : Nat) (r : List Char) : parseV f (']' :: r) = none := by
  cases f with
  | zero => rfl
  | succ g =>
    simp [parseV, show ((']' : Char) = '"') = False by decide,
      show ((']' : Char) = '[') = False by decide,
      show ((']' : Char) = obChar) = False by decide,
      show ((']' : Char) = 't') = False by decide,
      show ((']' : Char) = 'f') = False by decide,
      show ((']' : Char) = 'n') = False by decide,
      show ((']' : Char) = '-') = False by decide,
      show (']' : Char).isDigit = false by decide]

theorem parseV_comma_none (f : Nat) (r : List Char) : parseV f (',' :: r) = none := by
  cases f with
  | zero => rfl
  | succ g =>
    simp [parseV, show (((',') : Char) = '"') = False by decide,
      show (((',') : Char) = '[') = False by decide,
      show (((',') : Char) = obChar) = False by decide,
      show (((',') : Char) = 't') = False by decide,
      show (((',') : Char) = 'f') = False by decide,
      show (((',') : Char) = 'n') = False by decide,
      show (((',') : Char) = '-') = False by decide,
      show ((',') : Char).isDigit = false by decide]


/-!
String spans: the scan's string mode follows a successful string parse.
-/

theorem hexVal_ne {c : Char} {x : Nat} (h : hexVal c = some x) : c ≠ '"' ∧ c ≠ '\\' := by
  refine ⟨?_, ?_⟩
  · rintro rfl
    rw [show hexVal '"' = none by decide] at h
    exact Option.noConfusion h
  · rintro rfl
    rw [show hexVal '\\' = none by decide] at h
    exact Option.noConfusion h

theorem parseStrAux_cons_other {c : Char} {rest acc : List Char}
    (h1 : c ≠ '"') (h2 : c ≠ '\\') :
    parseStrAux (c :: rest) acc
      = if c.toNat < 32 then none else parseStrAux rest (c :: acc) := by
  rw [parseStrAux.eq_def]
  split
  · rename_i heq; exact absurd heq (by simp)
  · rename_i heq; exact absurd (List.cons.inj heq).1 h1
  · rename_i heq; exact absurd (List.cons.inj heq).1 h2
  · rename_i heq; exact absurd (List.cons.inj heq).1 h2
  · rename_i heq; exact absurd (List.cons.inj heq).1 h2
  · rename_i heq
    obtain ⟨hc, hr⟩ := List.cons.inj heq
    subst hc; subst hr; rfl

theorem parseStrAux_esc_some {e ec : Char} {rest acc : List Char}
    (hec : escChar e = some ec) :
    parseStrAux ('\\' :: e :: rest) acc = parseStrAux rest (ec :: acc) := by
  have hne : e ≠ 'u' := by
    rintro rfl
    rw [show escChar 'u' = none by decide] at hec
    exact Option.noConfusion hec
  rw [parseStrAux.eq_def]
  split
  · rename_i heq; exact absurd heq (by simp)
  · rename_i heq; exact absurd (List.cons.inj heq).1 (by decide)
  · rename_i heq
    exact absurd (List.cons.inj (List.cons.inj heq).2).1 hne
  · rename_i heq
    obtain ⟨-, htail⟩ := List.cons.inj heq
    obtain ⟨he, hr⟩ := List.cons.inj htail
    subst he; subst hr
    rw [hec]
  · rename_i heq; exact absurd (List.cons.inj heq).2 (by simp)
  · rename_i hq hu hesc hnil heq
    obtain ⟨hc, hr⟩ := List.cons.inj heq
    exact (hesc e rest hc.symm hr.symm).elim

theorem parseStrAux_esc_none {e : Char} {rest acc : List Char} (hec : escChar e = none)
    (hnu : ∀ h1 h2 h3 h4 r1, e = 'u' → rest = h1 :: h2 :: h3 :: h4 :: r1 → False) :
    parseStrAux ('\\' :: e :: rest) acc = none := by
  rw [parseStrAux.eq_def]
  split
  · rename_i heq; exact absurd heq (by simp)
  · rename_i heq; exact absurd (List.cons.inj heq).1 (by decide)
  · rename_i heq
    obtain ⟨-, htail⟩ := List.cons.inj heq
    obtain ⟨he, hr⟩ := List.cons.inj htail
    exact (hnu _ _ _ _ _ he hr).elim
  · rename_i heq
    obtain ⟨-, htail⟩ := List.cons.inj heq
    obtain ⟨he, hr⟩ := List.cons.inj htail
    subst he; subst hr
    rw [hec]
  · rename_i heq; exact absurd (List.cons.inj heq).2 (by simp)
  · rename_i hq hu hesc hnil heq
    obtain ⟨hc, hr⟩ := List.cons.inj heq
    exact (hesc e rest hc.symm hr.symm).elim

theorem parseStrAux_hex_eq (c1 c2 c3 c4 : Char) (rest acc : List Char) :
    parseStrAux ('\\' :: 'u' :: c1 :: c2 :: c3 :: c4 :: rest) acc
      = match hexVal c1, hexVal c2, hexVal c3, hexVal c4 with
        | some a, some b, some c, some d =>
          if 0xD800 ≤ ((a * 16 + b) * 16 + c) * 16 + d ∧
              ((a * 16 + b) * 16 + c) * 16 + d < 0xE000
          then none
          else parseStrAux rest (Char.ofNat (((a * 16 + b) * 16 + c) * 16 + d) :: acc)
        | _, _, _, _ => none := rfl

theorem scanStr_esc (c : Char) (rest st acc : List Char) (q : Char) :
    scanLoop (c :: rest) st (some q) true acc
      = scanLoop rest st (some q) false (acc ++ [c]) := by
  simp [scanLoop]

theorem scanStr_bs (rest st acc : List Char) (q : Char) :
    scanLoop ('\\' :: rest) st (some q) false acc
      = scanLoop rest st (some q) true (acc ++ ['\\']) := by
  simp [scanLoop]

theorem scanStr_step {c q : Char} (h1 : c ≠ '\\') (h2 : c ≠ q) (rest st acc : List Char) :
    scanLoop (c :: rest) st (some q) false acc
      = scanLoop rest st (some q) false (acc ++ [c]) := by
  simp [scanLoop, h1, h2]

theorem scanStr_close (q : Char) (rest st acc : List Char) (h : q ≠ '\\') :
    scanLoop (q :: rest) st (some q) false acc
      = scanLoop rest st none false (acc ++ [q]) := by
  simp [scanLoop, h]

theorem parseStrAux_consumed :
    ∀ cs acc out r, parseStrAux cs acc = some (out, r) →
      ∃ aS content, cs = aS ++ r ∧ out = acc.reverse ++ content ∧ ConsumedS aS content := by
  intro cs acc
  induction cs, acc using parseStrAux.induct
  -- []
  · rename_i acc
    intro out r h
    rw [show parseStrAux [] acc = none from rfl] at h
    exact Option.noConfusion h
  -- closing quote
  · rename_i rest acc
    intro out r h
    rw [show parseStrAux ('"' :: rest) acc = some (acc.reverse, rest) from rfl] at h
    obtain ⟨hout, hr⟩ := Prod.mk.inj (Option.some.inj h)
    subst hr
    refine ⟨['"'], [], rfl, by simp [hout], ?_, ?_⟩
    · intro acc2 r2
      simp [parseStrAux]
    · intro st acc3 rest2
      exact scanStr_close '"' rest2 st acc3 (by decide)
  -- \u with a surrogate value
  · rename_i c1 c2 c3 c4 rest acc a b c d hx4 hx3 hx2 hx1 v hsur
    intro out r h
    rw [parseStrAux_hex_eq, hx1, hx2, hx3, hx4] at h
    dsimp only at h
    rw [if_pos (by exact hsur)] at h
    exact Option.noConfusion h
  -- \u success
  · rename_i c1 c2 c3 c4 rest acc a b c d hx4 hx3 hx2 hx1 v hsur ih
    intro out r h
    rw [parseStrAux_hex_eq, hx1, hx2, hx3, hx4] at h
    dsimp only at h
    rw [if_neg (by exact hsur)] at h
    obtain ⟨aS2, content2, hsp, hout, hS⟩ := ih out r h
    refine ⟨'\\' :: 'u' :: c1 :: c2 :: c3 :: c4 :: aS2,
      Char.ofNat (((a * 16 + b) * 16 + c) * 16 + d) :: content2, by simp [hsp],
      by rw [hout]; simp, ?_, ?_⟩
    · intro acc2 r2
      simp only [List.cons_append]
      rw [parseStrAux_hex_eq, hx1, hx2, hx3, hx4]
      dsimp only
      rw [if_neg (by exact hsur),
        hS.1 (Char.ofNat (((a * 16 + b) * 16 + c) * 16 + d) :: acc2) r2]
      simp
    · intro st acc3 rest2
      simp only [List.cons_append]
      rw [scanStr_bs, scanStr_esc,
        scanStr_step (hexVal_ne hx1).2 (hexVal_ne hx1).1,
        scanStr_step (hexVal_ne hx2).2 (hexVal_ne hx2).1,
        scanStr_step (hexVal_ne hx3).2 (hexVal_ne hx3).1,
        scanStr_step (hexVal_ne hx4).2 (hexVal_ne hx4).1,
        hS.2 st (acc3 ++ ['\\'] ++ ['u'] ++ [c1] ++ [c2] ++ [c3] ++ [c4]) rest2]
      congr 1
      simp
  -- \u with a bad hex digit
  · rename_i c1 c2 c3 c4 rest acc hno
    intro out r h
    rcases hh1 : hexVal c1 with _ | a <;> rcases hh2 : hexVal c2 with _ | b <;>
      rcases hh3 : hexVal c3 with _ | c <;> rcases hh4 : hexVal c4 with _ | d <;>
      rw [parseStrAux_hex_eq, hh1, hh2, hh3, hh4] at h
    all_goals first
      | exact (hno _ _ _ _ hh1 hh2 hh3 hh4).elim
      | simp at h
  -- recognised escape
  · rename_i e rest acc hnu ec hec ih
    intro out r h
    rw [parseStrAux_esc_some hec] at h
    obtain ⟨aS2, content2, hsp, hout, hS⟩ := ih out r h
    refine ⟨'\\' :: e :: aS2, ec :: content2, by simp [hsp], by rw [hout]; simp, ?_, ?_⟩
    · intro acc2 r2
      simp only [List.cons_append]
      rw [parseStrAux_esc_some hec, hS.1 (ec :: acc2) r2]
      simp
    · intro st acc3 rest2
      simp only [List.cons_append]
      rw [scanStr_bs, scanStr_esc, hS.2 st (acc3 ++ ['\\'] ++ [e]) rest2]
      congr 1
      simp
  -- unrecognised escape
  · rename_i e rest acc hnu hec
    intro out r h
    rw [parseStrAux_esc_none hec (fun h1 h2 h3 h4 r1 he hr => hnu h1 h2 h3 h4 r1 he hr)] at h
    exact Option.noConfusion h
  -- lone backslash
  · rename_i acc
    intro out r h
    rw [show parseStrAux ['\\'] acc = none from rfl] at h
    exact Option.noConfusion h
  -- raw control character
  · rename_i c rest acc hq hu hesc hnil hlt
    intro out r h
    have hc2 : c ≠ '\\' := by
      intro hc
      cases rest with
      | nil => exact hnil hc rfl
      | cons e r0 => exact hesc e r0 hc rfl
    rw [parseStrAux_cons_other hq hc2, if_pos hlt] at h
    exact Option.noConfusion h
  -- ordinary character
  · rename_i c rest acc hq hu hesc hnil hlt ih
    intro out r h
    have hc2 : c ≠ '\\' := by
      intro hc
      cases rest with
      | nil => exact hnil hc rfl
      | cons e r0 => exact hesc e r0 hc rfl
    rw [parseStrAux_cons_other hq hc2, if_neg hlt] at h
    obtain ⟨aS2, content2, hsp, hout, hS⟩ := ih out r h
    refine ⟨c :: aS2, c :: content2, by simp [hsp], by rw [hout]; simp, ?_, ?_⟩
    · intro acc2 r2
      simp only [List.cons_append]
      rw [parseStrAux_cons_other hq hc2, if_neg hlt, hS.1 (c :: acc2) r2]
      simp
    · intro st acc3 rest2
      simp only [List.cons_append]
      rw [scanStr_step hc2 hq, hS.2 st (acc3 ++ [c]) rest2]
      congr 1
      simp

theorem parseStr_consumed {cs : List Char} {s : String} {r : List Char}
    (h : parseStr cs = some (s, r)) :
    ∃ aS, cs = aS ++ r ∧ ConsumedS aS s.data := by
  unfold parseStr at h
  cases hp : parseStrAux cs [] with
  | none => rw [hp] at h; exact Option.noConfusion h
  | some p =>
    rw [hp] at h
    obtain ⟨hs, hr⟩ := Prod.mk.inj (Option.some.inj h)
    obtain ⟨aS, content, hsp, hout, hS⟩ := parseStrAux_consumed cs [] p.1 p.2 hp
    subst hr
    refine ⟨aS, hsp, ?_⟩
    have : s.data = content := by rw [← hs]; simp [hout]
    rw [this]
    exact hS

/-!
Branch unfolding for the fueled parsers and the bracket actions of the
scan loop.
-/

theorem parseV_nil_none (f : Nat) : parseV f [] = none := by
  cases f <;> rfl

theorem parseElems_nil_none (f : Nat) : parseElems f [] = none := by
  cases f with
  | zero => rfl
  | succ g => simp [parseElems, parseV_nil_none]

theorem parseMembers_nil_none (f : Nat) : parseMembers f [] = none := by
  cases f <;> rfl

theorem parseElems_rb_none (f : Nat) (r : List Char) : parseElems f (']' :: r) = none := by
  cases f with
  | zero => rfl
  | succ g => simp [parseElems, parseV_rb_none]

theorem parseV_succ_quote (g : Nat) (rest : List Char) :
    parseV (g + 1) ('"' :: rest) = (parseStr rest).map (fun p => (Json.str p.1, p.2)) := by
  simp [parseV]

theorem parseV_succ_open (g : Nat) (rest : List Char) :
    parseV (g + 1) ('[' :: rest)
      = match skipWs rest with
        | ']' :: r => some (Json.arr [], r)
        | cs1 => (parseElems g cs1).map (fun p => (Json.arr p.1, p.2)) := by
  simp [parseV, show (('[' : Char) = '"') = False by decide]

theorem parseV_succ_curly (g : Nat) (rest : List Char) :
    parseV (g + 1) (obChar :: rest)
      = if (skipWs rest).head? = some cbChar then some (Json.obj [], (skipWs rest).tail)
        else (parseMembers g (skipWs rest)).map (fun p => (Json.obj p.1, p.2)) := by
  simp [parseV, show ((obChar : Char) = '"') = False by decide,
    show ((obChar : Char) = '[') = False by decide]

theorem parseV_succ_t (g : Nat) (rest : List Char) :
    parseV (g + 1) ('t' :: rest)
      = (dropPre ['r', 'u', 'e'] rest).map (fun r => (Json.bool true, r)) := by
  simp [parseV, show (('t' : Char) = '"') = False by decide,
    show (('t' : Char) = '[') = False by decide,
    show (('t' : Char) = obChar) = False by decide]

theorem parseV_succ_f (g : Nat) (rest : List Char) :
    parseV (g + 1) ('f' :: rest)
      = (dropPre ['a', 'l', 's', 'e'] rest).map (fun r => (Json.bool false, r)) := by
  simp [parseV, show (('f' : Char) = '"') = False by decide,
    show (('f' : Char) = '[') = False by decide,
    show (('f' : Char) = obChar) = False by decide,
    show (('f' : Char) = 't') = False by decide]

theorem parseV_succ_n (g : Nat) (rest : List Char) :
    parseV (g + 1) ('n' :: rest)
      = (dropPre ['u', 'l', 'l'] rest).map (fun r => (Json.null, r)) := by
  simp [parseV, show (('n' : Char) = '"') = False by decide,
    show (('n' : Char) = '[') = False by decide,
    show (('n' : Char) = obChar) = False by decide,
    show (('n' : Char) = 't') = False by decide,
    show (('n' : Char) = 'f') = False by decide]

theorem parseV_succ_minus (g : Nat) (rest : List Char) :
    parseV (g + 1) ('-' :: rest) = parseNum ('-' :: rest) := by
  simp [parseV, show (('-' : Char) = '"') = False by decide,
    show (('-' : Char) = '[') = False by decide,
    show (('-' : Char) = obChar) = False by decide,
    show (('-' : Char) = 't') = False by decide,
    show (('-' : Char) = 'f') = False by decide,
    show (('-' : Char) = 'n') = False by decide]

theorem parseV_succ_digit {c : Char} (h : c.isDigit = true) (g : Nat) (rest : List Char) :
    parseV (g + 1) (c :: rest) = parseNum (c :: rest) := by
  have h1 : c ≠ '"' := by intro h2; rw [h2] at h; exact absurd h (by decide)
  have h2 : c ≠ '[' := by intro h2; rw [h2] at h; exact absurd h (by decide)
  have h3 : c ≠ obChar := by intro h2; rw [h2] at h; exact absurd h (by decide)
  have h4 : c ≠ 't' := by intro h2; rw [h2] at h; exact absurd h (by decide)
  have h5 : c ≠ 'f' := by intro h2; rw [h2] at h; exact absurd h (by decide)
  have h6 : c ≠ 'n' := by intro h2; rw [h2] at h; exact absurd h (by decide)
  simp [parseV, h1, h2, h3, h4, h5, h6, h]

theorem parseNum_neg (rest : List Char) :
    parseNum ('-' :: rest) = (parseNatTok rest).map (fun p => (Json.num (-(p.1 : Int)), p.2)) :=
  rfl

theorem parseNum_nonneg {c : Char} (h : c ≠ '-') (rest : List Char) :
    parseNum (c :: rest)
      = (parseNatTok (c :: rest)).map (fun p => (Json.num (p.1 : Int), p.2)) := by
  rw [parseNum.eq_def]
  split
  · rename_i heq; exact absurd (List.cons.inj heq).1 h
  · rfl

theorem parseNatTok_zero (rest : List Char) : parseNatTok ('0' :: rest) = some (0, rest) := by
  simp [parseNatTok]

theorem parseNatTok_digit {c : Char} (h0 : c ≠ '0') (hd : c.isDigit = true) (rest : List Char) :
    parseNatTok (c :: rest)
      = some (digitsVal (c :: rest.takeWhile Char.isDigit), rest.dropWhile Char.isDigit) := by
  simp [parseNatTok, h0, hd]

theorem dropPre_some {pre : List Char} : ∀ {cs r : List Char}, dropPre pre cs = some r →
    cs = pre ++ r := by
  induction pre with
  | nil => intro cs r h; simpa using Option.some.inj h
  | cons l ls ih =>
    intro cs r h
    cases cs with
    | nil => exact absurd h (by simp [dropPre])
    | cons c t =>
      simp only [dropPre] at h
      by_cases hcl : c = l
      · rw [if_pos hcl] at h
        rw [hcl, ih h]
        rfl
      · rw [if_neg hcl] at h
        exact Option.noConfusion h

theorem dropPre_replay (pre r2 : List Char) : dropPre pre (pre ++ r2) = some r2 := by
  induction pre with
  | nil => rfl
  | cons l ls ih => simp [dropPre, ih]

theorem takeWhile_all_append {p : Char → Bool} {l r : List Char} (h : ∀ c ∈ l, p c = true)
    (hr : ∀ c, r.head? = some c → p c = false) :
    (l ++ r).takeWhile p = l ∧ (l ++ r).dropWhile p = r := by
  induction l with
  | nil =>
    cases r with
    | nil => simp
    | cons c t =>
      have := hr c rfl
      simp [List.takeWhile_cons, List.dropWhile_cons, this]
  | cons c t ih =>
    have hc := h c (List.mem_cons_self _ _)
    have ih2 := ih (fun c2 hc2 => h c2 (List.mem_cons_of_mem _ hc2))
    simp [List.takeWhile_cons, List.dropWhile_cons, hc, ih2.1, ih2.2]

theorem ws_not_digit {c : Char} (h : wsChar c = true) : c.isDigit = false := by
  simp only [wsChar] at h
  rw [decide_eq_true_iff] at h
  rcases h with rfl | rfl | rfl | rfl <;> decide

theorem numBoundary_of_head {a r : List Char}
    (h : ∀ c, r.head? = some c → c.isDigit = false) : numBoundary a r :=
  fun _ c2 _ _ hh => h c2 hh

theorem head_ws_nondigit {ws1 : List Char} (hws : ∀ c ∈ ws1, wsChar c = true) {c0 : Char}
    (hc0 : c0.isDigit = false) (X : List Char) :
    ∀ c, (ws1 ++ c0 :: X).head? = some c → c.isDigit = false := by
  intro c hc
  cases ws1 with
  | nil =>
    simp only [List.nil_append, List.head?_cons] at hc
    rw [← Option.some.inj hc]
    exact hc0
  | cons w t =>
    simp only [List.cons_append, List.head?_cons] at hc
    rw [← Option.some.inj hc]
    exact ws_not_digit (hws w (List.mem_cons_self _ _))

theorem scan_quote (rest st acc : List Char) (esc : Bool) :
    scanLoop ('"' :: rest) st none esc acc = scanLoop rest st (some '"') esc (acc ++ ['"']) := by
  simp [scanLoop]

theorem scan_open_sq (rest st acc : List Char) (esc : Bool) :
    scanLoop ('[' :: rest) st none esc acc
      = scanLoop rest (']' :: st) none esc (acc ++ ['[']) := by
  simp [scanLoop, show (('[' : Char) = '"') = False by decide,
    show (('[' : Char) = sqChar) = False by decide]

theorem scan_open_curly (rest st acc : List Char) (esc : Bool) :
    scanLoop (obChar :: rest) st none esc acc
      = scanLoop rest (cbChar :: st) none esc (acc ++ [obChar]) := by
  simp [scanLoop, show ((obChar : Char) = '"') = False by decide,
    show ((obChar : Char) = sqChar) = False by decide,
    show ((obChar : Char) = '[') = False by decide]

theorem scan_close_sq (rest st acc : List Char) (esc : Bool) :
    scanLoop (']' :: rest) (']' :: st) none esc acc
      = if st = [] then ScanRes.balanced (acc ++ [']'])
        else scanLoop rest st none esc (acc ++ [']']) := by
  simp [scanLoop, show ((']' : Char) = '"') = False by decide,
    show ((']' : Char) = sqChar) = False by decide,
    show ((']' : Char) = '[') = False by decide,
    show ((']' : Char) = obChar) = False by decide]

theorem scan_close_curly (rest st acc : List Char) (esc : Bool) :
    scanLoop (cbChar :: rest) (cbChar :: st) none esc acc
      = if st = [] then ScanRes.balanced (acc ++ [cbChar])
        else scanLoop rest st none esc (acc ++ [cbChar]) := by
  simp [scanLoop, show ((cbChar : Char) = '"') = False by decide,
    show ((cbChar : Char) = sqChar) = False by decide,
    show ((cbChar : Char) = '[') = False by decide,
    show ((cbChar : Char) = obChar) = False by decide,
    show ((cbChar : Char) = ']') = False by decide]

theorem startChar_ne_cb {c : Char} (h : startChar c) : c ≠ cbChar := by
  rcases h with rfl | rfl | rfl | rfl | rfl | rfl | rfl | hd
  · decide
  · decide
  · decide
  · decide
  · decide
  · decide
  · decide
  · intro h2
    rw [h2] at hd
    exact absurd hd (by decide)

/-!
Assembly of consumed-span bundles: each grammar production combines the
bundles of its parts.
-/

theorem plainChar_of (c : Char)
    (h1 : c ≠ '"' ∧ c ≠ sqChar ∧ c ≠ '[' ∧ c ≠ obChar ∧ c ≠ ']' ∧ c ≠ cbChar) :
    plainChar c := h1

theorem getLast_digit {c : Char} {ds : List Char} (hd : c.isDigit = true)
    (hds : ∀ x ∈ ds, x.isDigit = true) :
    ∃ cl, (c :: ds).getLast? = some cl ∧ cl.isDigit = true := by
  cases hl : ds.getLast? with
  | none =>
    have hnil : ds = [] := by
      cases ds with
      | nil => rfl
      | cons d t => exact absurd hl (by simp)
    subst hnil
    exact ⟨c, rfl, hd⟩
  | some cl =>
    refine ⟨cl, ?_, hds cl (List.mem_of_mem_getLast? hl)⟩
    cases ds with
    | nil => exact absurd hl (by simp)
    | cons d t => rw [show (c :: d :: t).getLast? = (d :: t).getLast? from rfl, hl]

theorem consV_str {aS content : List Char} (hS : ConsumedS aS content) :
    ConsumedV ('"' :: aS) (Json.str (String.mk content)) := by
  refine ⟨?_, ?_, ⟨'"', aS, rfl, Or.inl rfl⟩, ?_⟩
  · intro g r2 hlen _
    obtain ⟨g3, rfl⟩ : ∃ g3, g = g3 + 1 := ⟨g - 1, by omega⟩
    rw [show ('"' :: aS) ++ r2 = '"' :: (aS ++ r2) from rfl, parseV_succ_quote,
      show parseStr (aS ++ r2)
        = (parseStrAux (aS ++ r2) []).map (fun p => (String.mk p.1, p.2)) from rfl,
      hS.1 [] r2]
    simp
  · intro st acc rest2 _
    rw [show ('"' :: aS) ++ rest2 = '"' :: (aS ++ rest2) from rfl, scan_quote,
      hS.2 st (acc ++ ['"']) rest2]
    simp
  · intro l hl
    exact Json.noConfusion hl

theorem consV_true : ConsumedV ['t', 'r', 'u', 'e'] (Json.bool true) := by
  refine ⟨?_, ?_, ⟨'t', ['r', 'u', 'e'], rfl, by right; right; right; left; rfl⟩, ?_⟩
  · intro g r2 hlen _
    obtain ⟨g3, rfl⟩ : ∃ g3, g = g3 + 1 := ⟨g - 1, by omega⟩
    rw [show (['t', 'r', 'u', 'e'] : List Char) ++ r2 = 't' :: (['r', 'u', 'e'] ++ r2) from rfl,
      parseV_succ_t, dropPre_replay]
    rfl
  · refine ScanNeutral_of_plain ?_
    intro c hc
    fin_cases hc <;> exact plainChar_of _ (by decide)
  · intro l hl
    exact Json.noConfusion hl

theorem consV_false : ConsumedV ['f', 'a', 'l', 's', 'e'] (Json.bool false) := by
  refine ⟨?_, ?_, ⟨'f', ['a', 'l', 's', 'e'], rfl, by right; right; right; right; left; rfl⟩, ?_⟩
  · intro g r2 hlen _
    obtain ⟨g3, rfl⟩ : ∃ g3, g = g3 + 1 := ⟨g - 1, by omega⟩
    rw [show (['f', 'a', 'l', 's', 'e'] : List Char) ++ r2
        = 'f' :: (['a', 'l', 's', 'e'] ++ r2) from rfl,
      parseV_succ_f, dropPre_replay]
    rfl
  · refine ScanNeutral_of_plain ?_
    intro c hc
    fin_cases hc <;> exact plainChar_of _ (by decide)
  · intro l hl
    exact Json.noConfusion hl

theorem consV_null : ConsumedV ['n', 'u', 'l', 'l'] Json.null := by
  refine ⟨?_, ?_, ⟨'n', ['u', 'l', 'l'], rfl, by right; right; right; right; right; left; rfl⟩, ?_⟩
  · intro g r2 hlen _
    obtain ⟨g3, rfl⟩ : ∃ g3, g = g3 + 1 := ⟨g - 1, by omega⟩
    rw [show (['n', 'u', 'l', 'l'] : List Char) ++ r2 = 'n' :: (['u', 'l', 'l'] ++ r2) from rfl,
      parseV_succ_n, dropPre_replay]
    rfl
  · refine ScanNeutral_of_plain ?_
    intro c hc
    fin_cases hc <;> exact plainChar_of _ (by decide)
  · intro l hl
    exact Json.noConfusion hl

theorem consV_zero : ConsumedV ['0'] (Json.num ((0 : Nat) : Int)) := by
  refine ⟨?_, ?_, ⟨'0', [], rfl, by right; right; right; right; right; right; right; decide⟩, ?_⟩
  · intro g r2 hlen _
    obtain ⟨g3, rfl⟩ : ∃ g3, g = g3 + 1 := ⟨g - 1, by omega⟩
    rw [show (['0'] : List Char) ++ r2 = '0' :: r2 from rfl,
      parseV_succ_digit (by decide), parseNum_nonneg (by decide), parseNatTok_zero]
    rfl
  · exact ScanNeutral_of_plain (by
      intro c hc
      fin_cases hc
      exact plainChar_of _ (by decide))
  · intro l hl
    exact Json.noConfusion hl

theorem consV_neg_zero : ConsumedV ['-', '0'] (Json.num (-((0 : Nat) : Int))) := by
  refine ⟨?_, ?_, ⟨'-', ['0'], rfl, by right; right; right; right; right; right; left; rfl⟩, ?_⟩
  · intro g r2 hlen _
    obtain ⟨g3, rfl⟩ : ∃ g3, g = g3 + 1 := ⟨g - 1, by omega⟩
    rw [show (['-', '0'] : List Char) ++ r2 = '-' :: '0' :: r2 from rfl,
      parseV_succ_minus, parseNum_neg, parseNatTok_zero]
    rfl
  · exact ScanNeutral_of_plain (by
      intro c hc
      fin_cases hc <;> exact plainChar_of _ (by decide))
  · intro l hl
    exact Json.noConfusion hl

theorem consV_digits {c : Char} {ds : List Char} (h0 : c ≠ '0') (hd : c.isDigit = true)
    (hds : ∀ x ∈ ds, x.isDigit = true) :
    ConsumedV (c :: ds) (Json.num ((digitsVal (c :: ds) : Nat) : Int)) := by
  have hm : c ≠ '-' := by intro h2; rw [h2] at hd; exact absurd hd (by decide)
  refine ⟨?_, ?_, ⟨c, ds, rfl,
      by right; right; right; right; right; right; right; exact hd⟩, ?_⟩
  · intro g r2 hlen hnb
    obtain ⟨g3, rfl⟩ : ∃ g3, g = g3 + 1 := ⟨g - 1, by omega⟩
    obtain ⟨cl, hcl, hcld⟩ := getLast_digit hd hds
    have hr2 : ∀ x, r2.head? = some x → x.isDigit = false := fun x hx => hnb cl x hcl hcld hx
    obtain ⟨ht, hdr⟩ := takeWhile_all_append (p := Char.isDigit) hds hr2
    rw [show (c :: ds) ++ r2 = c :: (ds ++ r2) from rfl,
      parseV_succ_digit hd, parseNum_nonneg hm, parseNatTok_digit h0 hd, ht, hdr]
    rfl
  · exact ScanNeutral_of_plain (by
      intro x hx
      simp only [List.mem_cons] at hx
      rcases hx with rfl | hx
      · exact digit_plain hd
      · exact digit_plain (hds x hx))
  · intro l hl
    exact Json.noConfusion hl

theorem consV_neg_digits {c : Char} {ds : List Char} (h0 : c ≠ '0') (hd : c.isDigit = true)
    (hds : ∀ x ∈ ds, x.isDigit = true) :
    ConsumedV ('-' :: c :: ds) (Json.num (-((digitsVal (c :: ds) : Nat) : Int))) := by
  refine ⟨?_, ?_, ⟨'-', c :: ds, rfl,
      by right; right; right; right; right; right; left; rfl⟩, ?_⟩
  · intro g r2 hlen hnb
    obtain ⟨g3, rfl⟩ : ∃ g3, g = g3 + 1 := ⟨g - 1, by omega⟩
    obtain ⟨cl, hcl, hcld⟩ := getLast_digit hd hds
    have hcl2 : ('-' :: c :: ds).getLast? = some cl := by
      rw [show ('-' :: c :: ds).getLast? = (c :: ds).getLast? from rfl, hcl]
    have hr2 : ∀ x, r2.head? = some x → x.isDigit = false := fun x hx => hnb cl x hcl2 hcld hx
    obtain ⟨ht, hdr⟩ := takeWhile_all_append (p := Char.isDigit) hds hr2
    rw [show ('-' :: c :: ds) ++ r2 = '-' :: c :: (ds ++ r2) from rfl,
      parseV_succ_minus, parseNum_neg, parseNatTok_digit h0 hd, ht, hdr]
    rfl
  · exact ScanNeutral_of_plain (by
      intro x hx
      simp only [List.mem_cons] at hx
      rcases hx with rfl | rfl | hx
      · exact plainChar_of _ (by decide)
      · exact digit_plain hd
      · exact digit_plain (hds x hx))
  · intro l hl
    exact Json.noConfusion hl

theorem consV_arr_empty {ws1 : List Char} (hws : ∀ c ∈ ws1, wsChar c = true) :
    ConsumedV ('[' :: (ws1 ++ [']'])) (Json.arr []) := by
  refine ⟨?_, ?_, ⟨'[', ws1 ++ [']'], rfl, Or.inr (Or.inl rfl)⟩, ?_⟩
  · intro g r2 hlen _
    obtain ⟨g3, rfl⟩ : ∃ g3, g = g3 + 1 := ⟨g - 1, by omega⟩
    have h1 : ('[' :: (ws1 ++ [']'])) ++ r2 = '[' :: (ws1 ++ (']' :: r2)) := by simp
    rw [h1, parseV_succ_open, skipWs_ws_append hws, skipWs_cons_of_not (by decide)]
    rfl
  · intro st acc rest2 hst
    have h1 : ('[' :: (ws1 ++ [']'])) ++ rest2 = '[' :: (ws1 ++ (']' :: rest2)) := by simp
    rw [h1, scan_open_sq, ScanNeutral_ws hws (']' :: st) (acc ++ ['[']) (']' :: rest2) (by simp),
      scan_close_sq, if_neg hst]
    congr 1
    simp
  · intro l hl
    refine ⟨rfl, '[' :: ws1, by simp⟩

theorem consV_arr {ws1 aE : List Char} {l : List Json} (hws : ∀ c ∈ ws1, wsChar c = true)
    (hE : ConsumedE aE l) : ConsumedV ('[' :: (ws1 ++ aE)) (Json.arr l) := by
  obtain ⟨hrep, hscan, ⟨yE, hyE, hyN, hfail⟩, ⟨cE, rE0, haE, hcE⟩⟩ := hE
  refine ⟨?_, ?_, ⟨'[', ws1 ++ aE, rfl, Or.inr (Or.inl rfl)⟩, ?_⟩
  · intro g r2 hlen _
    obtain ⟨g3, rfl⟩ : ∃ g3, g = g3 + 1 := ⟨g - 1, by omega⟩
    have h1 : ('[' :: (ws1 ++ aE)) ++ r2 = '[' :: (ws1 ++ (aE ++ r2)) := by simp
    rw [h1, parseV_succ_open, skipWs_ws_append hws, haE]
    simp only [List.cons_append]
    rw [skipWs_cons_of_not (startChar_not_ws hcE)]
    split
    · rename_i r3 heq
      exact absurd (List.cons.inj heq).1 (startChar_ne_rb hcE)
    · have h2 : cE :: (rE0 ++ r2) = aE ++ r2 := by rw [haE]; simp
      rw [h2, hrep g3 r2 (by simp at hlen ⊢; omega)]
      rfl
  · intro st acc rest2 hst
    have h1 : ('[' :: (ws1 ++ aE)) ++ rest2 = '[' :: (ws1 ++ (aE ++ rest2)) := by simp
    rw [h1, scan_open_sq,
      ScanNeutral_ws hws (']' :: st) (acc ++ ['[']) (aE ++ rest2) (by simp),
      hscan st (acc ++ ['['] ++ ws1) rest2, if_neg hst]
    congr 1
    simp
  · intro l2 hl
    refine ⟨rfl, '[' :: ws1 ++ yE, ?_⟩
    rw [hyE]
    simp

theorem consV_obj_empty {ws1 : List Char} (hws : ∀ c ∈ ws1, wsChar c = true) :
    ConsumedV (obChar :: (ws1 ++ [cbChar])) (Json.obj []) := by
  refine ⟨?_, ?_, ⟨obChar, ws1 ++ [cbChar], rfl, Or.inr (Or.inr (Or.inl rfl))⟩, ?_⟩
  · intro g r2 hlen _
    obtain ⟨g3, rfl⟩ : ∃ g3, g = g3 + 1 := ⟨g - 1, by omega⟩
    have h1 : (obChar :: (ws1 ++ [cbChar])) ++ r2 = obChar :: (ws1 ++ (cbChar :: r2)) := by simp
    rw [h1, parseV_succ_curly, skipWs_ws_append hws, skipWs_cons_of_not (by decide),
      if_pos (show (cbChar :: r2).head? = some cbChar from rfl)]
    rfl
  · intro st acc rest2 hst
    have h1 : (obChar :: (ws1 ++ [cbChar])) ++ rest2
        = obChar :: (ws1 ++ (cbChar :: rest2)) := by simp
    rw [h1, scan_open_curly,
      ScanNeutral_ws hws (cbChar :: st) (acc ++ [obChar]) (cbChar :: rest2) (by simp),
      scan_close_curly, if_neg hst]
    congr 1
    simp
  · intro l hl
    exact Json.noConfusion hl

theorem consV_obj {ws1 aM : List Char} {m : List (String × Json)}
    (hws : ∀ c ∈ ws1, wsChar c = true) (hM : ConsumedM aM m) :
    ConsumedV (obChar :: (ws1 ++ aM)) (Json.obj m) := by
  obtain ⟨hrep, hscan, ⟨cM, rM0, haM, hcM⟩⟩ := hM
  refine ⟨?_, ?_, ⟨obChar, ws1 ++ aM, rfl, Or.inr (Or.inr (Or.inl rfl))⟩, ?_⟩
  · intro g r2 hlen _
    obtain ⟨g3, rfl⟩ : ∃ g3, g = g3 + 1 := ⟨g - 1, by omega⟩
    have h1 : (obChar :: (ws1 ++ aM)) ++ r2 = obChar :: (ws1 ++ (aM ++ r2)) := by simp
    rw [h1, parseV_succ_curly, skipWs_ws_append hws, haM]
    simp only [List.cons_append]
    rw [skipWs_cons_of_not (startChar_not_ws hcM), if_neg (by
      simp only [List.head?_cons, Option.some.injEq]
      exact startChar_ne_cb hcM)]
    have h2 : cM :: (rM0 ++ r2) = aM ++ r2 := by rw [haM]; simp
    rw [h2, hrep g3 r2 (by simp at hlen ⊢; omega)]
    rfl
  · intro st acc rest2 hst
    have h1 : (obChar :: (ws1 ++ aM)) ++ rest2 = obChar :: (ws1 ++ (aM ++ rest2)) := by simp
    rw [h1, scan_open_curly,
      ScanNeutral_ws hws (cbChar :: st) (acc ++ [obChar]) (aM ++ rest2) (by simp),
      hscan st (acc ++ [obChar] ++ ws1) rest2, if_neg hst]
    congr 1
    simp
  · intro l hl
    exact Json.noConfusion hl

theorem parseElems_succ (g : Nat) (cs : List Char) :
    parseElems (g + 1) cs
      = match parseV g cs with
        | none => none
        | some (v, r) =>
          match skipWs r with
          | ',' :: r2 =>
            match parseElems g (skipWs r2) with
            | none => none
            | some (l, r3) => some (v :: l, r3)
          | ']' :: r2 => some ([v], r2)
          | _ => none := rfl

theorem parseMembers_succ (g : Nat) (cs : List Char) :
    parseMembers (g + 1) cs
      = match cs with
        | '"' :: r =>
          match parseStr r with
          | none => none
          | some (k, r1) =>
            match skipWs r1 with
            | ':' :: r2 =>
              match parseV g (skipWs r2) with
              | none => none
              | some (v, r3) =>
                match skipWs r3 with
                | ',' :: r4 =>
                  match parseMembers g (skipWs r4) with
                  | none => none
                  | some (m, r5) => some ((k, v) :: m, r5)
                | c2 :: r4 => if c2 = cbChar then some ([(k, v)], r4) else none
                | [] => none
            | _ => none
        | _ => none := rfl

theorem consE_single {aV ws1 : List Char} {v : Json} (hV : ConsumedV aV v)
    (hws : ∀ c ∈ ws1, wsChar c = true) : ConsumedE (aV ++ ws1 ++ [']']) [v] := by
  obtain ⟨hrep, hneut, ⟨cV, rV0, haV, hcV⟩, _⟩ := hV
  refine ⟨?_, ?_, ⟨aV ++ ws1, by simp, ScanNeutral_append hneut (ScanNeutral_ws hws), ?_⟩,
    ⟨cV, rV0 ++ ws1 ++ [']'], by rw [haV]; simp, hcV⟩⟩
  · intro g r2 hlen
    obtain ⟨g3, rfl⟩ : ∃ g3, g = g3 + 1 := ⟨g - 1, by omega⟩
    have h1 : (aV ++ ws1 ++ [']']) ++ r2 = aV ++ (ws1 ++ ']' :: r2) := by simp
    rw [h1, parseElems_succ,
      hrep g3 (ws1 ++ ']' :: r2) (by simp at hlen ⊢; omega)
        (numBoundary_of_head (head_ws_nondigit hws (by decide) r2))]
    dsimp only
    rw [skipWs_ws_append hws, skipWs_cons_of_not (by decide)]
    rfl
  · intro st acc rest2
    have h1 : (aV ++ ws1 ++ [']']) ++ rest2 = aV ++ (ws1 ++ (']' :: rest2)) := by simp
    rw [h1, hneut (']' :: st) acc (ws1 ++ (']' :: rest2)) (by simp),
      ScanNeutral_ws hws (']' :: st) (acc ++ aV) (']' :: rest2) (by simp),
      scan_close_sq]
    by_cases hst : st = []
    · rw [if_pos hst, if_pos hst]
      congr 1
      simp
    · rw [if_neg hst, if_neg hst]
      congr 1
      simp
  · intro g r2 hlen
    obtain ⟨g3, rfl⟩ : ∃ g3, g = g3 + 1 := ⟨g - 1, by omega⟩
    have h1 : (aV ++ ws1) ++ ',' :: ']' :: r2 = aV ++ (ws1 ++ ',' :: (']' :: r2)) := by simp
    rw [h1, parseElems_succ,
      hrep g3 (ws1 ++ ',' :: (']' :: r2)) (by simp at hlen ⊢; omega)
        (numBoundary_of_head (head_ws_nondigit hws (by decide) (']' :: r2)))]
    dsimp only
    rw [skipWs_ws_append hws, skipWs_cons_of_not (by decide)]
    show (match parseElems g3 (skipWs (']' :: r2)) with
        | none => none
        | some (l, r3) => some (v :: l, r3)) = none
    rw [skipWs_cons_of_not (by decide), parseElems_rb_none]

theorem consE_cons {aV ws1 ws2 aE : List Char} {v : Json} {l : List Json}
    (hV : ConsumedV aV v) (hE : ConsumedE aE l)
    (hws1 : ∀ c ∈ ws1, wsChar c = true) (hws2 : ∀ c ∈ ws2, wsChar c = true) :
    ConsumedE (aV ++ ws1 ++ ',' :: (ws2 ++ aE)) (v :: l) := by
  obtain ⟨hrep, hneut, ⟨cV, rV0, haV, hcV⟩, _⟩ := hV
  obtain ⟨hErep, hEscan, ⟨yE, hyE, hyEneut, hEfail⟩, ⟨cE, rE0, haE, hcE⟩⟩ := hE
  have hVlen : aV.length = rV0.length + 1 := by rw [haV]; simp
  obtain ⟨yE0, hyE0⟩ : ∃ yE0, yE = cE :: yE0 := by
    cases yE with
    | nil =>
      rw [haE] at hyE
      simp only [List.nil_append] at hyE
      exact absurd (List.cons.inj hyE).1 (startChar_ne_rb hcE)
    | cons cE2 yt =>
      rw [haE] at hyE
      simp only [List.cons_append] at hyE
      exact ⟨yt, by rw [← (List.cons.inj hyE).1]⟩
  refine ⟨?_, ?_, ⟨aV ++ ws1 ++ ',' :: (ws2 ++ yE), by rw [hyE]; simp,
    ScanNeutral_append (ScanNeutral_append hneut (ScanNeutral_ws hws1))
      (ScanNeutral_cons_plain (plainChar_of ',' (by decide))
        (ScanNeutral_append (ScanNeutral_ws hws2) hyEneut)), ?_⟩,
    ⟨cV, rV0 ++ ws1 ++ ',' :: (ws2 ++ aE), by rw [haV]; simp, hcV⟩⟩
  · intro g r2 hlen
    obtain ⟨g3, rfl⟩ : ∃ g3, g = g3 + 1 := ⟨g - 1, by omega⟩
    have h1 : (aV ++ ws1 ++ ',' :: (ws2 ++ aE)) ++ r2
        = aV ++ (ws1 ++ ',' :: (ws2 ++ (aE ++ r2))) := by simp
    rw [h1, parseElems_succ,
      hrep g3 (ws1 ++ ',' :: (ws2 ++ (aE ++ r2))) (by simp at hlen ⊢; omega)
        (numBoundary_of_head (head_ws_nondigit hws1 (by decide) (ws2 ++ (aE ++ r2))))]
    dsimp only
    rw [skipWs_ws_append hws1, skipWs_cons_of_not (by decide)]
    show (match parseElems g3 (skipWs (ws2 ++ (aE ++ r2))) with
        | none => none
        | some (l2, r3) => some (v :: l2, r3)) = some (v :: l, r2)
    rw [skipWs_ws_append hws2, haE]
    simp only [List.cons_append]
    rw [skipWs_cons_of_not (startChar_not_ws hcE)]
    have h2 : cE :: (rE0 ++ r2) = aE ++ r2 := by rw [haE]; simp
    rw [h2, hErep g3 r2 (by simp at hlen ⊢; omega)]
  · intro st acc rest2
    have h1 : (aV ++ ws1 ++ ',' :: (ws2 ++ aE)) ++ rest2
        = aV ++ (ws1 ++ (',' :: (ws2 ++ (aE ++ rest2)))) := by simp
    rw [h1, hneut (']' :: st) acc (ws1 ++ (',' :: (ws2 ++ (aE ++ rest2)))) (by simp),
      ScanNeutral_ws hws1 (']' :: st) (acc ++ aV) (',' :: (ws2 ++ (aE ++ rest2))) (by simp),
      scan_plain (plainChar_of ',' (by decide)),
      ScanNeutral_ws hws2 (']' :: st) (acc ++ aV ++ ws1 ++ [',']) (aE ++ rest2) (by simp),
      hEscan st (acc ++ aV ++ ws1 ++ [','] ++ ws2) rest2]
    by_cases hst : st = []
    · rw [if_pos hst, if_pos hst]
      congr 1
      simp
    · rw [if_neg hst, if_neg hst]
      congr 1
      simp
  · intro g r2 hlen
    obtain ⟨g3, rfl⟩ : ∃ g3, g = g3 + 1 := ⟨g - 1, by omega⟩
    have h1 : (aV ++ ws1 ++ ',' :: (ws2 ++ yE)) ++ ',' :: ']' :: r2
        = aV ++ (ws1 ++ ',' :: (ws2 ++ (yE ++ ',' :: ']' :: r2))) := by simp
    rw [h1, parseElems_succ,
      hrep g3 (ws1 ++ ',' :: (ws2 ++ (yE ++ ',' :: ']' :: r2)))
        (by simp at hlen ⊢; omega)
        (numBoundary_of_head
          (head_ws_nondigit hws1 (by decide) (ws2 ++ (yE ++ ',' :: ']' :: r2))))]
    dsimp only
    rw [skipWs_ws_append hws1, skipWs_cons_of_not (by decide)]
    show (match parseElems g3 (skipWs (ws2 ++ (yE ++ ',' :: ']' :: r2))) with
        | none => none
        | some (l2, r3) => some (v :: l2, r3)) = none
    rw [skipWs_ws_append hws2, hyE0]
    simp only [List.cons_append]
    rw [skipWs_cons_of_not (startChar_not_ws hcE)]
    have h2 : cE :: (yE0 ++ ',' :: ']' :: r2) = yE ++ ',' :: ']' :: r2 := by rw [hyE0]; simp
    rw [h2, hEfail g3 r2 (by simp at hlen; omega)]

theorem parseMembers_succ_quote (g : Nat) (r : List Char) :
    parseMembers (g + 1) ('"' :: r)
      = match parseStr r with
        | none => none
        | some (k, r1) =>
          match skipWs r1 with
          | ':' :: r2 =>
            match parseV g (skipWs r2) with
            | none => none
            | some (v, r3) =>
              match skipWs r3 with
              | ',' :: r4 =>
                match parseMembers g (skipWs r4) with
                | none => none
                | some (m, r5) => some ((k, v) :: m, r5)
              | c2 :: r4 => if c2 = cbChar then some ([(k, v)], r4) else none
              | [] => none
          | _ => none := rfl

theorem consM_single {aS ws1 ws2 aV ws3 : List Char} {s : String} {v : Json}
    (hS : ConsumedS aS s.data) (hV : ConsumedV aV v)
    (hws1 : ∀ c ∈ ws1, wsChar c = true) (hws2 : ∀ c ∈ ws2, wsChar c = true)
    (hws3 : ∀ c ∈ ws3, wsChar c = true) :
    ConsumedM (('"' :: aS) ++ ws1 ++ ':' :: (ws2 ++ aV ++ ws3 ++ [cbChar])) [(s, v)] := by
  obtain ⟨hVrep, hVneut, ⟨cV, rV0, haV, hcV⟩, _⟩ := hV
  refine ⟨?_, ?_, ⟨'"', aS ++ ws1 ++ ':' :: (ws2 ++ aV ++ ws3 ++ [cbChar]), by simp, Or.inl rfl⟩⟩
  · intro g r2 hlen
    obtain ⟨g3, rfl⟩ : ∃ g3, g = g3 + 1 := ⟨g - 1, by omega⟩
    have h1 : (('"' :: aS) ++ ws1 ++ ':' :: (ws2 ++ aV ++ ws3 ++ [cbChar])) ++ r2
        = '"' :: (aS ++ (ws1 ++ ':' :: (ws2 ++ (aV ++ (ws3 ++ cbChar :: r2))))) := by simp
    have hps : parseStr (aS ++ (ws1 ++ ':' :: (ws2 ++ (aV ++ (ws3 ++ cbChar :: r2)))))
        = some (s, ws1 ++ ':' :: (ws2 ++ (aV ++ (ws3 ++ cbChar :: r2)))) := by
      rw [show parseStr (aS ++ (ws1 ++ ':' :: (ws2 ++ (aV ++ (ws3 ++ cbChar :: r2)))))
          = (parseStrAux (aS ++ (ws1 ++ ':' :: (ws2 ++ (aV ++ (ws3 ++ cbChar :: r2))))) []).map
              (fun p => (String.mk p.1, p.2)) from rfl,
        hS.1 [] (ws1 ++ ':' :: (ws2 ++ (aV ++ (ws3 ++ cbChar :: r2))))]
      rfl
    rw [h1, parseMembers_succ_quote, hps]
    dsimp only
    rw [skipWs_ws_append hws1, skipWs_cons_of_not (by decide)]
    show (match parseV g3 (skipWs (ws2 ++ (aV ++ (ws3 ++ cbChar :: r2)))) with
        | none => none
        | some (v2, r3) =>
          match skipWs r3 with
          | ',' :: r4 =>
            match parseMembers g3 (skipWs r4) with
            | none => none
            | some (m2, r5) => some ((s, v2) :: m2, r5)
          | c2 :: r4 => if c2 = cbChar then some ([(s, v2)], r4) else none
          | [] => none) = some ([(s, v)], r2)
    rw [skipWs_ws_append hws2, haV]
    simp only [List.cons_append]
    rw [skipWs_cons_of_not (startChar_not_ws hcV)]
    have h2 : cV :: (rV0 ++ (ws3 ++ cbChar :: r2)) = aV ++ (ws3 ++ cbChar :: r2) := by
      rw [haV]; simp
    rw [h2, hVrep g3 (ws3 ++ cbChar :: r2) (by simp at hlen ⊢; omega)
      (numBoundary_of_head (head_ws_nondigit hws3 (by decide) r2))]
    dsimp only
    rw [skipWs_ws_append hws3, skipWs_cons_of_not (by decide)]
    rfl
  · intro st acc rest2
    have h1 : (('"' :: aS) ++ ws1 ++ ':' :: (ws2 ++ aV ++ ws3 ++ [cbChar])) ++ rest2
        = '"' :: (aS ++ (ws1 ++ (':' :: (ws2 ++ (aV ++ (ws3 ++ (cbChar :: rest2))))))) := by
      simp
    rw [h1, scan_quote, hS.2 (cbChar :: st) (acc ++ ['"'])
        (ws1 ++ (':' :: (ws2 ++ (aV ++ (ws3 ++ (cbChar :: rest2)))))),
      ScanNeutral_ws hws1 (cbChar :: st) (acc ++ ['"'] ++ aS)
        (':' :: (ws2 ++ (aV ++ (ws3 ++ (cbChar :: rest2))))) (by simp),
      scan_plain (plainChar_of ':' (by decide)),
      ScanNeutral_ws hws2 (cbChar :: st) (acc ++ ['"'] ++ aS ++ ws1 ++ [':'])
        (aV ++ (ws3 ++ (cbChar :: rest2))) (by simp),
      hVneut (cbChar :: st) (acc ++ ['"'] ++ aS ++ ws1 ++ [':'] ++ ws2)
        (ws3 ++ (cbChar :: rest2)) (by simp),
      ScanNeutral_ws hws3 (cbChar :: st) (acc ++ ['"'] ++ aS ++ ws1 ++ [':'] ++ ws2 ++ aV)
        (cbChar :: rest2) (by simp),
      scan_close_curly]
    by_cases hst : st = []
    · rw [if_pos hst, if_pos hst]
      congr 1
      simp
    · rw [if_neg hst, if_neg hst]
      congr 1
      simp

theorem consM_cons {aS ws1 ws2 aV ws3 ws4 aM : List Char} {s : String} {v : Json}
    {m : List (String × Json)}
    (hS : ConsumedS aS s.data) (hV : ConsumedV aV v) (hM : ConsumedM aM m)
    (hws1 : ∀ c ∈ ws1, wsChar c = true) (hws2 : ∀ c ∈ ws2, wsChar c = true)
    (hws3 : ∀ c ∈ ws3, wsChar c = true) (hws4 : ∀ c ∈ ws4, wsChar c = true) :
    ConsumedM (('"' :: aS) ++ ws1 ++ ':' :: (ws2 ++ aV ++ ws3 ++ ',' :: (ws4 ++ aM)))
      ((s, v) :: m) := by
  obtain ⟨hVrep, hVneut, ⟨cV, rV0, haV, hcV⟩, _⟩ := hV
  obtain ⟨hMrep, hMscan, ⟨cM, rM0, haM, hcM⟩⟩ := hM
  refine ⟨?_, ?_, ⟨'"', aS ++ ws1 ++ ':' :: (ws2 ++ aV ++ ws3 ++ ',' :: (ws4 ++ aM)),
    by simp, Or.inl rfl⟩⟩
  · intro g r2 hlen
    obtain ⟨g3, rfl⟩ : ∃ g3, g = g3 + 1 := ⟨g - 1, by omega⟩
    have h1 : (('"' :: aS) ++ ws1 ++ ':' :: (ws2 ++ aV ++ ws3 ++ ',' :: (ws4 ++ aM))) ++ r2
        = '"' :: (aS ++ (ws1 ++ ':' :: (ws2 ++ (aV ++ (ws3 ++ ',' :: (ws4 ++ (aM ++ r2)))))))
        := by simp
    have hps : parseStr (aS ++ (ws1 ++ ':' :: (ws2 ++ (aV ++ (ws3 ++ ',' :: (ws4 ++ (aM ++ r2)))))))
        = some (s, ws1 ++ ':' :: (ws2 ++ (aV ++ (ws3 ++ ',' :: (ws4 ++ (aM ++ r2)))))) := by
      rw [show parseStr (aS ++ (ws1 ++ ':' :: (ws2 ++ (aV ++ (ws3 ++ ',' :: (ws4 ++ (aM ++ r2)))))))
          = (parseStrAux (aS ++ (ws1 ++ ':' :: (ws2 ++ (aV ++ (ws3 ++ ',' :: (ws4 ++ (aM ++ r2))))))) []).map
              (fun p => (String.mk p.1, p.2)) from rfl,
        hS.1 [] (ws1 ++ ':' :: (ws2 ++ (aV ++ (ws3 ++ ',' :: (ws4 ++ (aM ++ r2))))))]
      rfl
    rw [h1, parseMembers_succ_quote, hps]
    dsimp only
    rw [skipWs_ws_append hws1, skipWs_cons_of_not (by decide)]
    show (match parseV g3 (skipWs (ws2 ++ (aV ++ (ws3 ++ ',' :: (ws4 ++ (aM ++ r2)))))) with
        | none => none
        | some (v2, r3) =>
          match skipWs r3 with
          | ',' :: r4 =>
            match parseMembers g3 (skipWs r4) with
            | none => none
            | some (m2, r5) => some ((s, v2) :: m2, r5)
          | c2 :: r4 => if c2 = cbChar then some ([(s, v2)], r4) else none
          | [] => none) = some ((s, v) :: m, r2)
    rw [skipWs_ws_append hws2, haV]
    simp only [List.cons_append]
    rw [skipWs_cons_of_not (startChar_not_ws hcV)]
    have h2 : cV :: (rV0 ++ (ws3 ++ ',' :: (ws4 ++ (aM ++ r2))))
        = aV ++ (ws3 ++ ',' :: (ws4 ++ (aM ++ r2))) := by
      rw [haV]; simp
    rw [h2, hVrep g3 (ws3 ++ ',' :: (ws4 ++ (aM ++ r2))) (by simp at hlen ⊢; omega)
      (numBoundary_of_head (head_ws_nondigit hws3 (by decide) (ws4 ++ (aM ++ r2))))]
    dsimp only
    rw [skipWs_ws_append hws3, skipWs_cons_of_not (by decide)]
    show (match parseMembers g3 (skipWs (ws4 ++ (aM ++ r2))) with
        | none => none
        | some (m2, r5) => some ((s, v) :: m2, r5)) = some ((s, v) :: m, r2)
    rw [skipWs_ws_append hws4, haM]
    simp only [List.cons_append]
    rw [skipWs_cons_of_not (startChar_not_ws hcM)]
    have h3 : cM :: (rM0 ++ r2) = aM ++ r2 := by rw [haM]; simp
    rw [h3, hMrep g3 r2 (by simp at hlen ⊢; omega)]
  · intro st acc rest2
    have h1 : (('"' :: aS) ++ ws1 ++ ':' :: (ws2 ++ aV ++ ws3 ++ ',' :: (ws4 ++ aM))) ++ rest2
        = '"' :: (aS ++ (ws1 ++ (':' :: (ws2 ++ (aV ++ (ws3 ++ (',' :: (ws4 ++ (aM ++ rest2)))))))))
        := by simp
    rw [h1, scan_quote, hS.2 (cbChar :: st) (acc ++ ['"'])
        (ws1 ++ (':' :: (ws2 ++ (aV ++ (ws3 ++ (',' :: (ws4 ++ (aM ++ rest2)))))))),
      ScanNeutral_ws hws1 (cbChar :: st) (acc ++ ['"'] ++ aS)
        (':' :: (ws2 ++ (aV ++ (ws3 ++ (',' :: (ws4 ++ (aM ++ rest2))))))) (by simp),
      scan_plain (plainChar_of ':' (by decide)),
      ScanNeutral_ws hws2 (cbChar :: st) (acc ++ ['"'] ++ aS ++ ws1 ++ [':'])
        (aV ++ (ws3 ++ (',' :: (ws4 ++ (aM ++ rest2))))) (by simp),
      hVneut (cbChar :: st) (acc ++ ['"'] ++ aS ++ ws1 ++ [':'] ++ ws2)
        (ws3 ++ (',' :: (ws4 ++ (aM ++ rest2)))) (by simp),
      ScanNeutral_ws hws3 (cbChar :: st) (acc ++ ['"'] ++ aS ++ ws1 ++ [':'] ++ ws2 ++ aV)
        (',' :: (ws4 ++ (aM ++ rest2))) (by simp),
      scan_plain (plainChar_of ',' (by decide)),
      ScanNeutral_ws hws4 (cbChar :: st)
        (acc ++ ['"'] ++ aS ++ ws1 ++ [':'] ++ ws2 ++ aV ++ ws3 ++ [','])
        (aM ++ rest2) (by simp),
      hMscan st (acc ++ ['"'] ++ aS ++ ws1 ++ [':'] ++ ws2 ++ aV ++ ws3 ++ [','] ++ ws4) rest2]
    by_cases hst : st = []
    · rw [if_pos hst, if_pos hst]
      congr 1
      simp
    · rw [if_neg hst, if_neg hst]
      congr 1
      simp

theorem parseV_succ_other {c : Char} (h1 : c ≠ '"') (h2 : c ≠ '[') (h3 : c ≠ obChar)
    (h4 : c ≠ 't') (h5 : c ≠ 'f') (h6 : c ≠ 'n') (h7 : c ≠ '-') (h8 : c.isDigit = false)
    (g : Nat) (rest : List Char) : parseV (g + 1) (c :: rest) = none := by
  simp [parseV, h1, h2, h3, h4, h5, h6, h7, h8]

theorem parseMembers_succ_other {c : Char} (h : c ≠ '"') (g : Nat) (rest : List Char) :
    parseMembers (g + 1) (c :: rest) = none := by
  rw [parseMembers_succ]
  split
  · rename_i heq
    exact absurd (List.cons.inj heq).1 h
  · rfl

theorem parse_consumed (f : Nat) :
    (∀ cs v r, parseV f cs = some (v, r) → ∃ a, cs = a ++ r ∧ ConsumedV a v) ∧
    (∀ cs l r, parseElems f cs = some (l, r) → ∃ a, cs = a ++ r ∧ ConsumedE a l) ∧
    (∀ cs m r, parseMembers f cs = some (m, r) → ∃ a, cs = a ++ r ∧ ConsumedM a m) := by
  induction f with
  | zero =>
    refine ⟨?_, ?_, ?_⟩ <;> (intro cs x r h; exact Option.noConfusion h)
  | succ g ih =>
    obtain ⟨ihV, ihE, ihM⟩ := ih
    refine ⟨?_, ?_, ?_⟩
    · -- parseV
      intro cs v r h
      cases cs with
      | nil =>
        rw [parseV_nil_none] at h
        exact Option.noConfusion h
      | cons c rest =>
        by_cases hq : c = '"'
        · subst hq
          rw [parseV_succ_quote] at h
          cases hps : parseStr rest with
          | none => rw [hps] at h; exact Option.noConfusion h
          | some p =>
            rw [hps] at h
            obtain ⟨s0, r1⟩ := p
            have h2 : some (Json.str s0, r1) = some (v, r) := h
            obtain ⟨hv, hr⟩ := Prod.mk.inj (Option.some.inj h2)
            subst hr
            obtain ⟨aS, hsp, hS⟩ := parseStr_consumed hps
            refine ⟨'"' :: aS, by simp [hsp], ?_⟩
            rw [← hv]
            exact consV_str hS
        · by_cases hlb : c = '['
          · subst hlb
            rw [parseV_succ_open] at h
            split at h
            · rename_i r3 heq
              obtain ⟨hv, hr⟩ := Prod.mk.inj (Option.some.inj h)
              subst hr
              have hsplit : ('[' : Char) :: rest
                  = '[' :: (rest.takeWhile wsChar ++ [']']) ++ r3 := by
                conv_lhs => rw [skipWs_split rest, heq]
                simp
              refine ⟨'[' :: (rest.takeWhile wsChar ++ [']']), hsplit, ?_⟩
              rw [← hv]
              exact consV_arr_empty (fun x hx => mem_takeWhile_ws hx)
            · rename_i hne
              cases hpe : parseElems g (skipWs rest) with
              | none => rw [hpe] at h; exact Option.noConfusion h
              | some p =>
                rw [hpe] at h
                obtain ⟨l0, rE⟩ := p
                have h2 : some (Json.arr l0, rE) = some (v, r) := h
                obtain ⟨hv, hr⟩ := Prod.mk.inj (Option.some.inj h2)
                subst hr
                obtain ⟨aE, hspE, hE⟩ := ihE (skipWs rest) l0 rE hpe
                have hsplit : ('[' : Char) :: rest
                    = '[' :: (rest.takeWhile wsChar ++ aE) ++ rE := by
                  conv_lhs => rw [skipWs_split rest, hspE]
                  simp
                refine ⟨'[' :: (rest.takeWhile wsChar ++ aE), hsplit, ?_⟩
                rw [← hv]
                exact consV_arr (fun x hx => mem_takeWhile_ws hx) hE
          · by_cases hob : c = obChar
            · subst hob
              rw [parseV_succ_curly] at h
              rcases hsw : skipWs rest with _ | ⟨c1, t1⟩ <;> rw [hsw] at h
              · rw [if_neg (by simp)] at h
                rw [parseMembers_nil_none] at h
                exact Option.noConfusion h
              · by_cases hc1 : c1 = cbChar
                · subst hc1
                  rw [if_pos (show (cbChar :: t1).head? = some cbChar from rfl)] at h
                  have h2 : some (Json.obj [], t1) = some (v, r) := h
                  obtain ⟨hv, hr⟩ := Prod.mk.inj (Option.some.inj h2)
                  subst hr
                  have hsplit : obChar :: rest
                      = obChar :: (rest.takeWhile wsChar ++ [cbChar]) ++ t1 := by
                    conv_lhs => rw [skipWs_split rest, hsw]
                    simp
                  refine ⟨obChar :: (rest.takeWhile wsChar ++ [cbChar]), hsplit, ?_⟩
                  rw [← hv]
                  exact consV_obj_empty (fun x hx => mem_takeWhile_ws hx)
                · rw [if_neg (by simp [hc1])] at h
                  cases hpm : parseMembers g (c1 :: t1) with
                  | none => rw [hpm] at h; exact Option.noConfusion h
                  | some p =>
                    rw [hpm] at h
                    obtain ⟨m0, rM⟩ := p
                    have h2 : some (Json.obj m0, rM) = some (v, r) := h
                    obtain ⟨hv, hr⟩ := Prod.mk.inj (Option.some.inj h2)
                    subst hr
                    obtain ⟨aM, hspM, hM⟩ := ihM (c1 :: t1) m0 rM hpm
                    have hsplit : obChar :: rest
                        = obChar :: (rest.takeWhile wsChar ++ aM) ++ rM := by
                      conv_lhs => rw [skipWs_split rest, hsw, hspM]
                      simp
                    refine ⟨obChar :: (rest.takeWhile wsChar ++ aM), hsplit, ?_⟩
                    rw [← hv]
                    exact consV_obj (fun x hx => mem_takeWhile_ws hx) hM
            · by_cases hT : c = 't'
              · subst hT
                rw [parseV_succ_t] at h
                cases hdp : dropPre ['r', 'u', 'e'] rest with
                | none => rw [hdp] at h; exact Option.noConfusion h
                | some r0 =>
                  rw [hdp] at h
                  have h2 : some (Json.bool true, r0) = some (v, r) := h
                  obtain ⟨hv, hr⟩ := Prod.mk.inj (Option.some.inj h2)
                  subst hr
                  have hrest := dropPre_some hdp
                  refine ⟨['t', 'r', 'u', 'e'], by rw [hrest]; rfl, ?_⟩
                  rw [← hv]
                  exact consV_true
              · by_cases hF : c = 'f'
                · subst hF
                  rw [parseV_succ_f] at h
                  cases hdp : dropPre ['a', 'l', 's', 'e'] rest with
                  | none => rw [hdp] at h; exact Option.noConfusion h
                  | some r0 =>
                    rw [hdp] at h
                    have h2 : some (Json.bool false, r0) = some (v, r) := h
                    obtain ⟨hv, hr⟩ := Prod.mk.inj (Option.some.inj h2)
                    subst hr
                    have hrest := dropPre_some hdp
                    refine ⟨['f', 'a', 'l', 's', 'e'], by rw [hrest]; rfl, ?_⟩
                    rw [← hv]
                    exact consV_false
                · by_cases hN : c = 'n'
                  · subst hN
                    rw [parseV_succ_n] at h
                    cases hdp : dropPre ['u', 'l', 'l'] rest with
                    | none => rw [hdp] at h; exact Option.noConfusion h
                    | some r0 =>
                      rw [hdp] at h
                      have h2 : some (Json.null, r0) = some (v, r) := h
                      obtain ⟨hv, hr⟩ := Prod.mk.inj (Option.some.inj h2)
                      subst hr
                      have hrest := dropPre_some hdp
                      refine ⟨['n', 'u', 'l', 'l'], by rw [hrest]; rfl, ?_⟩
                      rw [← hv]
                      exact consV_null
                  · by_cases hMi : c = '-'
                    · subst hMi
                      rw [parseV_succ_minus, parseNum_neg] at h
                      cases hpt : parseNatTok rest with
                      | none => rw [hpt] at h; exact Option.noConfusion h
                      | some p =>
                        rw [hpt] at h
                        obtain ⟨n0, r0⟩ := p
                        have h2 : some (Json.num (-(n0 : Int)), r0) = some (v, r) := h
                        obtain ⟨hv, hr⟩ := Prod.mk.inj (Option.some.inj h2)
                        subst hr
                        cases rest with
                        | nil => exact Option.noConfusion hpt
                        | cons c2 t2 =>
                          by_cases hz : c2 = '0'
                          · subst hz
                            rw [parseNatTok_zero] at hpt
                            obtain ⟨hn, hr0⟩ := Prod.mk.inj (Option.some.inj hpt)
                            subst hr0
                            refine ⟨['-', '0'], rfl, ?_⟩
                            rw [← hv, ← hn]
                            exact consV_neg_zero
                          · by_cases hd2 : c2.isDigit
                            · rw [parseNatTok_digit hz hd2] at hpt
                              obtain ⟨hn, hr0⟩ := Prod.mk.inj (Option.some.inj hpt)
                              have hsplit : '-' :: c2 :: t2
                                  = ('-' :: c2 :: t2.takeWhile Char.isDigit) ++ r0 := by
                                conv_lhs =>
                                  rw [← List.takeWhile_append_dropWhile (p := Char.isDigit)
                                    (l := t2), hr0]
                                rfl
                              refine ⟨'-' :: c2 :: t2.takeWhile Char.isDigit, hsplit, ?_⟩
                              rw [← hv, ← hn]
                              exact consV_neg_digits hz hd2
                                (fun x hx => List.mem_takeWhile_imp hx)
                            · rw [show parseNatTok (c2 :: t2) = none by
                                simp [parseNatTok, hz, hd2]] at hpt
                              exact Option.noConfusion hpt
                    · by_cases hd : c.isDigit
                      · rw [parseV_succ_digit hd, parseNum_nonneg hMi] at h
                        cases hpt : parseNatTok (c :: rest) with
                        | none => rw [hpt] at h; exact Option.noConfusion h
                        | some p =>
                          rw [hpt] at h
                          obtain ⟨n0, r0⟩ := p
                          have h2 : some (Json.num (n0 : Int), r0) = some (v, r) := h
                          obtain ⟨hv, hr⟩ := Prod.mk.inj (Option.some.inj h2)
                          subst hr
                          by_cases hz : c = '0'
                          · subst hz
                            rw [parseNatTok_zero] at hpt
                            obtain ⟨hn, hr0⟩ := Prod.mk.inj (Option.some.inj hpt)
                            subst hr0
                            refine ⟨['0'], rfl, ?_⟩
                            rw [← hv, ← hn]
                            exact consV_zero
                          · rw [parseNatTok_digit hz hd] at hpt
                            obtain ⟨hn, hr0⟩ := Prod.mk.inj (Option.some.inj hpt)
                            have hsplit : c :: rest
                                = (c :: rest.takeWhile Char.isDigit) ++ r0 := by
                              conv_lhs =>
                                rw [← List.takeWhile_append_dropWhile (p := Char.isDigit)
                                  (l := rest), hr0]
                              rfl
                            refine ⟨c :: rest.takeWhile Char.isDigit, hsplit, ?_⟩
                            rw [← hv, ← hn]
                            exact consV_digits hz hd (fun x hx => List.mem_takeWhile_imp hx)
                      · rw [parseV_succ_other hq hlb hob hT hF hN hMi
                          (by simpa using hd)] at h
                        exact Option.noConfusion h
    · -- parseElems
      intro cs l r h
      rw [parseElems_succ] at h
      cases hpv : parseV g cs with
      | none => rw [hpv] at h; exact Option.noConfusion h
      | some p =>
        rw [hpv] at h
        obtain ⟨v, r1⟩ := p
        dsimp only at h
        obtain ⟨aV, hspV, hV⟩ := ihV cs v r1 hpv
        split at h
        · rename_i r2 heq
          cases hpe : parseElems g (skipWs r2) with
          | none => rw [hpe] at h; exact Option.noConfusion h
          | some p2 =>
            rw [hpe] at h
            obtain ⟨l2, r3⟩ := p2
            have h3 : some (v :: l2, r3) = some (l, r) := h
            obtain ⟨hl, hr⟩ := Prod.mk.inj (Option.some.inj h3)
            subst hr
            obtain ⟨aE, hspE, hE⟩ := ihE (skipWs r2) l2 r3 hpe
            have hr1 : r1 = r1.takeWhile wsChar ++ (',' :: r2) := by
              conv_lhs => rw [skipWs_split r1, heq]
            have hr2 : r2 = r2.takeWhile wsChar ++ (aE ++ r3) := by
              conv_lhs => rw [skipWs_split r2, hspE]
            have hsplit : cs
                = (aV ++ r1.takeWhile wsChar ++ ',' :: (r2.takeWhile wsChar ++ aE)) ++ r3 := by
              conv_lhs => rw [hspV, hr1, hr2]
              simp
            refine ⟨aV ++ r1.takeWhile wsChar ++ ',' :: (r2.takeWhile wsChar ++ aE),
              hsplit, ?_⟩
            rw [← hl]
            exact consE_cons hV hE (fun x hx => mem_takeWhile_ws hx)
              (fun x hx => mem_takeWhile_ws hx)
        · rename_i r2 heq
          have h3 : some ([v], r2) = some (l, r) := h
          obtain ⟨hl, hr⟩ := Prod.mk.inj (Option.some.inj h3)
          subst hr
          have hr1 : r1 = r1.takeWhile wsChar ++ (']' :: r2) := by
            conv_lhs => rw [skipWs_split r1, heq]
          have hsplit : cs = (aV ++ r1.takeWhile wsChar ++ [']']) ++ r2 := by
            conv_lhs => rw [hspV, hr1]
            simp
          refine ⟨aV ++ r1.takeWhile wsChar ++ [']'], hsplit, ?_⟩
          rw [← hl]
          exact consE_single hV (fun x hx => mem_takeWhile_ws hx)
        · exact Option.noConfusion h
    · -- parseMembers
      intro cs m r h
      cases cs with
      | nil =>
        rw [parseMembers_nil_none] at h
        exact Option.noConfusion h
      | cons c rest =>
        by_cases hc : c = '"'
        · subst hc
          rw [parseMembers_succ_quote] at h
          cases hps : parseStr rest with
          | none => rw [hps] at h; exact Option.noConfusion h
          | some p =>
            rw [hps] at h
            obtain ⟨s0, r1⟩ := p
            dsimp only at h
            obtain ⟨aS, hsp, hS⟩ := parseStr_consumed hps
            split at h
            · rename_i r2 heq
              cases hpv : parseV g (skipWs r2) with
              | none => rw [hpv] at h; exact Option.noConfusion h
              | some p2 =>
                rw [hpv] at h
                obtain ⟨v, r3⟩ := p2
                dsimp only at h
                obtain ⟨aV, hspV, hV⟩ := ihV (skipWs r2) v r3 hpv
                split at h
                · rename_i r4 heq2
                  cases hpm : parseMembers g (skipWs r4) with
                  | none => rw [hpm] at h; exact Option.noConfusion h
                  | some p3 =>
                    rw [hpm] at h
                    obtain ⟨m2, r5⟩ := p3
                    have h3 : some ((s0, v) :: m2, r5) = some (m, r) := h
                    obtain ⟨hm, hr⟩ := Prod.mk.inj (Option.some.inj h3)
                    subst hr
                    obtain ⟨aM, hspM, hM⟩ := ihM (skipWs r4) m2 r5 hpm
                    have hr1 : r1 = r1.takeWhile wsChar ++ (':' :: r2) := by
                      conv_lhs => rw [skipWs_split r1, heq]
                    have hr2 : r2 = r2.takeWhile wsChar ++ (aV ++ r3) := by
                      conv_lhs => rw [skipWs_split r2, hspV]
                    have hr3 : r3 = r3.takeWhile wsChar ++ (',' :: r4) := by
                      conv_lhs => rw [skipWs_split r3, heq2]
                    have hr4 : r4 = r4.takeWhile wsChar ++ (aM ++ r5) := by
                      conv_lhs => rw [skipWs_split r4, hspM]
                    have hsplit : ('"' : Char) :: rest
                        = (('"' :: aS) ++ r1.takeWhile wsChar
                          ++ ':' :: (r2.takeWhile wsChar ++ aV ++ r3.takeWhile wsChar
                            ++ ',' :: (r4.takeWhile wsChar ++ aM))) ++ r5 := by
                      conv_lhs => rw [hsp, hr1, hr2, hr3, hr4]
                      simp
                    refine ⟨('"' :: aS) ++ r1.takeWhile wsChar
                      ++ ':' :: (r2.takeWhile wsChar ++ aV ++ r3.takeWhile wsChar
                        ++ ',' :: (r4.takeWhile wsChar ++ aM)), hsplit, ?_⟩
                    rw [← hm]
                    exact consM_cons hS hV hM (fun x hx => mem_takeWhile_ws hx)
                      (fun x hx => mem_takeWhile_ws hx) (fun x hx => mem_takeWhile_ws hx)
                      (fun x hx => mem_takeWhile_ws hx)
                · rename_i c2 r4 hnc heq2
                  split at h
                  · rename_i hcb
                    subst hcb
                    have h3 : some ([(s0, v)], r4) = some (m, r) := h
                    obtain ⟨hm, hr⟩ := Prod.mk.inj (Option.some.inj h3)
                    subst hr
                    have hr1 : r1 = r1.takeWhile wsChar ++ (':' :: r2) := by
                      conv_lhs => rw [skipWs_split r1, heq]
                    have hr2 : r2 = r2.takeWhile wsChar ++ (aV ++ r3) := by
                      conv_lhs => rw [skipWs_split r2, hspV]
                    have hr3 : r3 = r3.takeWhile wsChar ++ (cbChar :: r4) := by
                      conv_lhs => rw [skipWs_split r3, heq2]
                    have hsplit : ('"' : Char) :: rest
                        = (('"' :: aS) ++ r1.takeWhile wsChar
                          ++ ':' :: (r2.takeWhile wsChar ++ aV ++ r3.takeWhile wsChar
                            ++ [cbChar])) ++ r4 := by
                      conv_lhs => rw [hsp, hr1, hr2, hr3]
                      simp
                    refine ⟨('"' :: aS) ++ r1.takeWhile wsChar
                      ++ ':' :: (r2.takeWhile wsChar ++ aV ++ r3.takeWhile wsChar
                        ++ [cbChar]), hsplit, ?_⟩
                    rw [← hm]
                    exact consM_single hS hV (fun x hx => mem_takeWhile_ws hx)
                      (fun x hx => mem_takeWhile_ws hx) (fun x hx => mem_takeWhile_ws hx)
                  · exact Option.noConfusion h
                · exact Option.noConfusion h
            · exact Option.noConfusion h
        · rw [parseMembers_succ_other hc] at h
          exact Option.noConfusion h

/-!
Structure of a text that `json.loads` accepts as an array, and the
failure of the direct parse on prose and on trailing commas.
-/

theorem append_last_inj {xs ys : List Char} {x y : Char} (h : xs ++ [x] = ys ++ [y]) :
    xs = ys ∧ x = y := by
  obtain ⟨h1, h2⟩ := List.append_inj' h (by simp)
  exact ⟨h1, (List.cons.inj h2).1⟩

theorem all_ws_of_skipWs_nil {r : List Char} (h : skipWs r = []) :
    ∀ c ∈ r, wsChar c = true := by
  rw [skipWs, List.dropWhile_eq_nil_iff] at h
  exact h

theorem parseElems_comma_none (f : Nat) (r : List Char) : parseElems f (',' :: r) = none := by
  cases f with
  | zero => rfl
  | succ g => simp [parseElems, parseV_comma_none]

theorem jsonLoads_head_nonws {c : Char} {rest : List Char} (h : wsChar c = false) :
    jsonLoads (c :: rest)
      = match parseV ((c :: rest).length + 1) (c :: rest) with
        | some (v, r) => if skipWs r = [] then some v else none
        | none => none := by
  simp only [jsonLoads, skipWs_cons_of_not h]

theorem jsonLoads_prose_none {c : Char} (rest : List Char) (hws : wsChar c = false)
    (h1 : c ≠ '"') (h2 : c ≠ '[') (h3 : c ≠ obChar) (h4 : c ≠ 't') (h5 : c ≠ 'f')
    (h6 : c ≠ 'n') (h7 : c ≠ '-') (h8 : c.isDigit = false) :
    jsonLoads (c :: rest) = none := by
  rw [jsonLoads_head_nonws hws,
    show (c :: rest).length + 1 = rest.length + 1 + 1 by simp,
    parseV_succ_other h1 h2 h3 h4 h5 h6 h7 h8]

theorem ends_rb_ws_suffix_nil {inner u r : List Char}
    (hdec : inner ++ [']'] = u ++ r) (hws : ∀ c ∈ r, wsChar c = true) : r = [] := by
  cases hr : r with
  | nil => rfl
  | cons a t =>
    exfalso
    have hL : (a :: t).dropLast ++ [(a :: t).getLast (by simp)] = a :: t :=
      List.dropLast_append_getLast (by simp)
    have h2 : inner ++ [']'] = (u ++ (a :: t).dropLast) ++ [(a :: t).getLast (by simp)] := by
      conv_lhs => rw [hdec, hr, ← hL]
      simp
    have hlast := (append_last_inj h2).2
    have hmem : (a :: t).getLast (by simp) ∈ (a :: t) := List.getLast_mem (by simp)
    have hmem2 : (a :: t).getLast (by simp) ∈ r := by rw [hr]; exact hmem
    have hwsl := hws _ hmem2
    rw [← hlast] at hwsl
    exact absurd hwsl (by decide)

theorem yE_head_start {aE yE : List Char} {cE : Char} {rE0 : List Char}
    (h1 : aE = yE ++ [']']) (h2 : aE = cE :: rE0) (hcE : startChar cE) :
    ∃ yt, yE = cE :: yt := by
  cases yE with
  | nil =>
    rw [h2] at h1
    simp only [List.nil_append] at h1
    exact absurd (List.cons.inj h1).1 (startChar_ne_rb hcE)
  | cons c0 yt =>
    rw [h2] at h1
    simp only [List.cons_append] at h1
    exact ⟨yt, by rw [← (List.cons.inj h1).1]⟩

theorem arr_text_struct {inner : List Char} {l : List Json}
    (h : jsonLoads ('[' :: inner ++ [']']) = some (Json.arr l)) :
    ((∀ c ∈ inner, wsChar c = true) ∧ l = []) ∨
    ∃ twI yE, inner = twI ++ yE ∧ (∀ c ∈ twI, wsChar c = true) ∧ ScanNeutral yE ∧
      (∃ cE rest0, yE = cE :: rest0 ∧ startChar cE) ∧
      (∀ g r2, yE.length + 1 < g → parseElems g (yE ++ ']' :: r2) = some (l, r2)) ∧
      (∀ g r2, yE.length + 1 < g → parseElems g (yE ++ ',' :: ']' :: r2) = none) := by
  rw [show ('[' :: inner ++ [']'] : List Char) = '[' :: (inner ++ [']']) from rfl] at h
  rw [jsonLoads_head_nonws (by decide)] at h
  cases hpv : parseV (('[' :: (inner ++ [']'])).length + 1) ('[' :: (inner ++ [']'])) with
  | none => rw [hpv] at h; exact Option.noConfusion h
  | some p =>
    rw [hpv] at h
    obtain ⟨v, r⟩ := p
    dsimp only at h
    have hvr : skipWs r = [] ∧ v = Json.arr l := by
      by_cases hsr : skipWs r = []
      · rw [if_pos hsr] at h
        exact ⟨hsr, Option.some.inj h⟩
      · rw [if_neg hsr] at h
        exact absurd h (by simp)
    obtain ⟨hsr, hv⟩ := hvr
    subst hv
    rw [show ('[' :: (inner ++ [']'])).length + 1 = (inner ++ [']']).length + 1 + 1 by simp,
      parseV_succ_open] at hpv
    split at hpv
    · rename_i r3 heq
      left
      obtain ⟨hl, hr⟩ := Prod.mk.inj (Option.some.inj hpv)
      have hws3 : ∀ c ∈ r3, wsChar c = true := by
        rw [hr]
        exact all_ws_of_skipWs_nil hsr
      have hdecomp : inner ++ [']']
          = (inner ++ [']']).takeWhile wsChar ++ (']' :: r3) := by
        conv_lhs => rw [skipWs_split (inner ++ [']']), heq]
      have h3nil : r3 = [] :=
        ends_rb_ws_suffix_nil (u := (inner ++ [']']).takeWhile wsChar ++ [']'])
          (by conv_lhs => rw [hdecomp]
              simp) hws3
      rw [h3nil] at hdecomp
      have hinner := (append_last_inj hdecomp).1
      refine ⟨?_, ?_⟩
      · intro c hc
        rw [hinner] at hc
        exact mem_takeWhile_ws hc
      · injection hl with hll
        exact hll.symm
    · rename_i hne
      right
      cases hpe : parseElems ((inner ++ [']']).length + 1) (skipWs (inner ++ [']'])) with
      | none => rw [hpe] at hpv; exact Option.noConfusion hpv
      | some p2 =>
        rw [hpe] at hpv
        obtain ⟨l0, rE⟩ := p2
        have h2 : some (Json.arr l0, rE) = some (Json.arr l, r) := hpv
        obtain ⟨hl, hr⟩ := Prod.mk.inj (Option.some.inj h2)
        obtain ⟨aE, hspE, hE⟩ :=
          (parse_consumed ((inner ++ [']']).length + 1)).2.1 _ l0 rE hpe
        obtain ⟨hErep, hEscan, ⟨yE, hyE, hyN, hEfail⟩, ⟨cE, rE0, haE, hcE⟩⟩ := hE
        have hwsE : ∀ c ∈ rE, wsChar c = true := by
          rw [hr]
          exact all_ws_of_skipWs_nil hsr
        have hdecomp : inner ++ [']']
            = (inner ++ [']']).takeWhile wsChar ++ (aE ++ rE) := by
          conv_lhs => rw [skipWs_split (inner ++ [']']), hspE]
        have hEnil : rE = [] :=
          ends_rb_ws_suffix_nil (u := (inner ++ [']']).takeWhile wsChar ++ aE)
            (by conv_lhs => rw [hdecomp]
                simp) hwsE
        rw [hEnil, List.append_nil] at hdecomp
        rw [hyE] at hdecomp
        have hd2 : inner ++ [']'] = ((inner ++ [']']).takeWhile wsChar ++ yE) ++ [']'] := by
          conv_lhs => rw [hdecomp]
          simp
        have hinner : inner = (inner ++ [']']).takeWhile wsChar ++ yE :=
          (append_last_inj hd2).1
      
        obtain ⟨yt, hyt⟩ := yE_head_start hyE haE hcE
        have hll : l0 = l := by injection hl with hll
        have hsucc : ∀ g r2, yE.length + 1 < g →
            parseElems g (yE ++ ']' :: r2) = some (l, r2) := by
          intro g r2 hg
          have hrep2 := hErep g r2 (by rw [hyE]; simp; omega)
          rw [hyE, List.append_assoc] at hrep2
          simp only [List.singleton_append] at hrep2
          rw [← hll]
          exact hrep2
        exact ⟨(inner ++ [']']).takeWhile wsChar, yE, hinner,
          fun c hc => mem_takeWhile_ws hc, hyN, ⟨cE, yt, hyt, hcE⟩, hsucc, hEfail⟩

theorem parseV_arr_comma_none {inner : List Char} {l : List Json}
    (h : jsonLoads ('[' :: inner ++ [']']) = some (Json.arr l)) (g : Nat) (q : List Char)
    (hg : inner.length + 1 < g) :
    parseV (g + 1) ('[' :: (inner ++ ',' :: ']' :: q)) = none := by
  rw [parseV_succ_open]
  rcases arr_text_struct h with ⟨hws, hleq⟩ | ⟨twI, yE, hin, htw, hyN, ⟨cE, rest0, hyEh, hcE⟩, hsucc, hfail⟩
  · rw [skipWs_ws_append hws, skipWs_cons_of_not (by decide)]
    show Option.map (fun p => (Json.arr p.1, p.2)) (parseElems g (',' :: ']' :: q)) = none
    rw [parseElems_comma_none]
    rfl
  · rw [hin]
    have hskip : skipWs ((twI ++ yE) ++ (',' :: ']' :: q)) = yE ++ (',' :: ']' :: q) := by
      rw [List.append_assoc, skipWs_ws_append htw, hyEh]
      simp only [List.cons_append]
      rw [skipWs_cons_of_not (startChar_not_ws hcE), ← List.cons_append, ← hyEh]
    rw [show (twI ++ yE) ++ ',' :: ']' :: q = (twI ++ yE) ++ (',' :: ']' :: q) from rfl, hskip]
    have hylen : yE.length ≤ inner.length := by
      rw [hin]
      simp
    split
    · rename_i r3 heq
      rw [hyEh] at heq
      simp only [List.cons_append] at heq
      exact absurd (List.cons.inj heq).1 (startChar_ne_rb hcE)
    · rw [hfail g q (by omega)]
      simp

theorem jsonLoads_trailing_comma_none {inner : List Char} {l : List Json}
    (h : jsonLoads ('[' :: inner ++ [']']) = some (Json.arr l)) (q : List Char) :
    jsonLoads ('[' :: inner ++ ',' :: ']' :: q) = none := by
  rw [show ('[' :: inner ++ ',' :: ']' :: q : List Char)
      = '[' :: (inner ++ ',' :: ']' :: q) from rfl,
    jsonLoads_head_nonws (by decide),
    show ('[' :: (inner ++ ',' :: ']' :: q)).length + 1
      = (inner ++ ',' :: ']' :: q).length + 1 + 1 by simp,
    parseV_arr_comma_none h ((inner ++ ',' :: ']' :: q).length + 1) q (by simp)]

theorem scan_arr_balanced {inner : List Char} {l : List Json}
    (h : jsonLoads ('[' :: inner ++ [']']) = some (Json.arr l)) (q : List Char) :
    scanLoop (('[' :: inner ++ [']']) ++ q) [] none false []
      = ScanRes.balanced ('[' :: inner ++ [']']) := by
  rcases arr_text_struct h with ⟨hws, hleq⟩ | ⟨twI, yE, hin, htw, hyN, ⟨cE, rest0, hyEh, hcE⟩, hsucc, hfail⟩
  · have h1 : ('[' :: inner ++ [']']) ++ q = '[' :: (inner ++ (']' :: q)) := by simp
    rw [h1, scan_open_sq]
    simp only [List.nil_append]
    rw [ScanNeutral_ws hws [']'] ['['] (']' :: q) (by simp), scan_close_sq, if_pos rfl]
    rfl
  · have h1 : ('[' :: inner ++ [']']) ++ q = '[' :: (twI ++ (yE ++ (']' :: q))) := by
      rw [hin]
      simp
    rw [h1, scan_open_sq]
    simp only [List.nil_append]
    rw [ScanNeutral_ws htw [']'] ['['] (yE ++ (']' :: q)) (by simp),
      hyN [']'] (['['] ++ twI) (']' :: q) (by simp), scan_close_sq, if_pos rfl]
    congr 1
    rw [hin]
    simp

theorem scan_arr_comma_balanced {inner : List Char} {l : List Json}
    (h : jsonLoads ('[' :: inner ++ [']']) = some (Json.arr l)) (q : List Char) :
    scanLoop (('[' :: inner ++ [',', ']']) ++ q) [] none false []
      = ScanRes.balanced ('[' :: inner ++ [',', ']']) := by
  rcases arr_text_struct h with ⟨hws, hleq⟩ | ⟨twI, yE, hin, htw, hyN, ⟨cE, rest0, hyEh, hcE⟩, hsucc, hfail⟩
  · have h1 : ('[' :: inner ++ [',', ']']) ++ q = '[' :: (inner ++ (',' :: (']' :: q))) := by
      simp
    rw [h1, scan_open_sq]
    simp only [List.nil_append]
    rw [ScanNeutral_ws hws [']'] ['['] (',' :: (']' :: q)) (by simp),
      scan_plain (plainChar_of ',' (by decide)), scan_close_sq, if_pos rfl]
    congr 1
    simp
  · have h1 : ('[' :: inner ++ [',', ']']) ++ q
        = '[' :: (twI ++ (yE ++ (',' :: (']' :: q)))) := by
      rw [hin]
      simp
    rw [h1, scan_open_sq]
    simp only [List.nil_append]
    rw [ScanNeutral_ws htw [']'] ['['] (yE ++ (',' :: (']' :: q))) (by simp),
      hyN [']'] (['['] ++ twI) (',' :: (']' :: q)) (by simp),
      scan_plain (plainChar_of ',' (by decide)), scan_close_sq, if_pos rfl]
    congr 1
    rw [hin]
    simp

theorem splitAtStart_some_split : ∀ {t pre sp : List Char},
    splitAtStart t = some (pre, sp) → t = pre ++ sp := by
  intro t
  induction t with
  | nil => intro pre sp h; exact Option.noConfusion h
  | cons c rest ih =>
    intro pre sp h
    by_cases hb : startBracket c = true
    · rw [show splitAtStart (c :: rest) = some ([], c :: rest) by
        simp [splitAtStart, hb]] at h
      obtain ⟨h1, h2⟩ := Prod.mk.inj (Option.some.inj h)
      rw [← h1, ← h2]
      rfl
    · rw [show splitAtStart (c :: rest)
          = (splitAtStart rest).map (fun p => (c :: p.1, p.2)) by
        simp [splitAtStart, hb]] at h
      cases hs : splitAtStart rest with
      | none => rw [hs] at h; exact Option.noConfusion h
      | some p =>
        rw [hs] at h
        have h2 : some (c :: p.1, p.2) = some (pre, sp) := h
        obtain ⟨h3, h4⟩ := Prod.mk.inj (Option.some.inj h2)
        rw [← h3, ← h4]
        rw [ih hs]
        rfl

theorem splitAtStart_append {p : List Char} (hp : ∀ c ∈ p, startBracket c = false)
    {c0 : Char} (hc0 : startBracket c0 = true) (rest : List Char) :
    splitAtStart (p ++ c0 :: rest) = some (p, c0 :: rest) := by
  induction p with
  | nil => simp [splitAtStart, hc0]
  | cons c pt ih =>
    rw [List.cons_append,
      show splitAtStart (c :: (pt ++ c0 :: rest))
        = (splitAtStart (pt ++ c0 :: rest)).map (fun p => (c :: p.1, p.2)) by
      simp [splitAtStart, hp c (List.mem_cons_self _ _)],
      ih (fun x hx => hp x (List.mem_cons_of_mem _ hx))]
    rfl

theorem jsonLoads_ws_append {cs q : List Char} {v : Json} (h : jsonLoads cs = some v)
    (hq : ∀ c ∈ q, wsChar c = true) : jsonLoads (cs ++ q) = some v := by
  simp only [jsonLoads] at h ⊢
  cases hpv : parseV ((skipWs cs).length + 1) (skipWs cs) with
  | none => rw [hpv] at h; exact Option.noConfusion h
  | some p =>
    rw [hpv] at h
    obtain ⟨v0, r⟩ := p
    dsimp only at h
    have hvr : skipWs r = [] ∧ v0 = v := by
      by_cases hsr : skipWs r = []
      · rw [if_pos hsr] at h
        exact ⟨hsr, Option.some.inj h⟩
      · rw [if_neg hsr] at h
        exact absurd h (by simp)
    obtain ⟨hsr, hv⟩ := hvr
    subst hv
    obtain ⟨a, hsp, hV⟩ := (parse_consumed ((skipWs cs).length + 1)).1 _ v0 r hpv
    obtain ⟨hrep, hneut, ⟨cV, rV0, haV, hcV⟩, harr⟩ := hV
    have hwsr : ∀ c ∈ r, wsChar c = true := all_ws_of_skipWs_nil hsr
    -- skipWs (cs ++ q) = a ++ (r ++ q)
    have hskip : skipWs (cs ++ q) = a ++ (r ++ q) := by
      conv_lhs => rw [skipWs_split cs]
      rw [List.append_assoc, skipWs_ws_append (fun c hc => mem_takeWhile_ws hc), hsp, haV]
      simp only [List.cons_append]
      rw [skipWs_cons_of_not (startChar_not_ws hcV)]
      simp
    rw [hskip]
    have hnb : numBoundary a (r ++ q) := by
      intro c c2 hlast hdig hhead
      rcases hrq : r ++ q with _ | ⟨c3, t3⟩
      · rw [hrq] at hhead
        exact Option.noConfusion hhead
      · rw [hrq] at hhead
        have hc3 : c2 = c3 := by
          simp only [List.head?_cons] at hhead
          exact (Option.some.inj hhead).symm
        have hmem : c3 ∈ r ++ q := by rw [hrq]; exact List.mem_cons_self _ _
        rcases List.mem_append.mp hmem with hm | hm
        · rw [hc3]
          exact ws_not_digit (hwsr c3 hm)
        · rw [hc3]
          exact ws_not_digit (hq c3 hm)
    rw [hrep ((a ++ (r ++ q)).length + 1) (r ++ q) (by simp; omega) hnb]
    dsimp only
    rw [skipWs_ws_append hwsr, if_pos (show skipWs q = [] by
      rw [skipWs, List.dropWhile_eq_nil_iff]
      exact hq)]

theorem scan_balanced_prefix : ∀ cs st q esc acc res,
    scanLoop cs st q esc acc = ScanRes.balanced res →
    ∃ w rest, res = acc ++ w ∧ cs = w ++ rest := by
  intro cs
  induction cs with
  | nil =>
    intro st q esc acc res h
    exact ScanRes.noConfusion h
  | cons c rest ih =>
    intro st q esc acc res h
    cases q with
    | some q2 =>
      cases esc with
      | true =>
        rw [scanStr_esc] at h
        obtain ⟨w, r2, hres, hcs⟩ := ih st (some q2) false (acc ++ [c]) res h
        exact ⟨c :: w, r2, by rw [hres]; simp, by rw [hcs]; rfl⟩
      | false =>
        by_cases hbs : c = '\\'
        · subst hbs
          rw [scanStr_bs] at h
          obtain ⟨w, r2, hres, hcs⟩ := ih st (some q2) true (acc ++ ['\\']) res h
          exact ⟨'\\' :: w, r2, by rw [hres]; simp, by rw [hcs]; rfl⟩
        · by_cases hcq : c = q2
          · subst hcq
            rw [scanStr_close c rest st acc hbs] at h
            obtain ⟨w, r2, hres, hcs⟩ := ih st none false (acc ++ [c]) res h
            exact ⟨c :: w, r2, by rw [hres]; simp, by rw [hcs]; rfl⟩
          · rw [scanStr_step hbs hcq] at h
            obtain ⟨w, r2, hres, hcs⟩ := ih st (some q2) false (acc ++ [c]) res h
            exact ⟨c :: w, r2, by rw [hres]; simp, by rw [hcs]; rfl⟩
    | none =>
      by_cases h1 : c = '"' ∨ c = sqChar
      · have hq : scanLoop (c :: rest) st none esc acc
            = scanLoop rest st (some c) esc (acc ++ [c]) := by
          rcases h1 with rfl | rfl
          · simp [scanLoop]
          · simp [scanLoop]
        rw [hq] at h
        obtain ⟨w, r2, hres, hcs⟩ := ih st (some c) esc (acc ++ [c]) res h
        exact ⟨c :: w, r2, by rw [hres]; simp, by rw [hcs]; rfl⟩
      · by_cases h2 : c = '['
        · subst h2
          rw [scan_open_sq] at h
          obtain ⟨w, r2, hres, hcs⟩ := ih (']' :: st) none esc (acc ++ ['[']) res h
          exact ⟨'[' :: w, r2, by rw [hres]; simp, by rw [hcs]; rfl⟩
        · by_cases h3 : c = obChar
          · subst h3
            rw [scan_open_curly] at h
            obtain ⟨w, r2, hres, hcs⟩ := ih (cbChar :: st) none esc (acc ++ [obChar]) res h
            exact ⟨obChar :: w, r2, by rw [hres]; simp, by rw [hcs]; rfl⟩
          · by_cases h4 : c = ']' ∨ c = cbChar
            · cases st with
              | nil =>
                have hno : scanLoop (c :: rest) [] none esc acc = ScanRes.noBal := by
                  rcases h4 with rfl | rfl
                  · simp [scanLoop, show ((']' : Char) = '"') = False by decide,
                      show ((']' : Char) = sqChar) = False by decide,
                      show ((']' : Char) = '[') = False by decide,
                      show ((']' : Char) = obChar) = False by decide]
                  · simp [scanLoop, show ((cbChar : Char) = '"') = False by decide,
                      show ((cbChar : Char) = sqChar) = False by decide,
                      show ((cbChar : Char) = '[') = False by decide,
                      show ((cbChar : Char) = obChar) = False by decide,
                      show ((cbChar : Char) = ']') = False by decide]
                rw [hno] at h
                exact ScanRes.noConfusion h
              | cons e st2 =>
                have hstep : scanLoop (c :: rest) (e :: st2) none esc acc
                    = if c = e then
                        (if st2 = [] then ScanRes.balanced (acc ++ [c])
                         else scanLoop rest st2 none esc (acc ++ [c]))
                      else ScanRes.noBal := by
                  rcases h4 with rfl | rfl
                  · simp [scanLoop, show ((']' : Char) = '"') = False by decide,
                      show ((']' : Char) = sqChar) = False by decide,
                      show ((']' : Char) = '[') = False by decide,
                      show ((']' : Char) = obChar) = False by decide]
                  · simp [scanLoop, show ((cbChar : Char) = '"') = False by decide,
                      show ((cbChar : Char) = sqChar) = False by decide,
                      show ((cbChar : Char) = '[') = False by decide,
                      show ((cbChar : Char) = obChar) = False by decide,
                      show ((cbChar : Char) = ']') = False by decide]
                rw [hstep] at h
                by_cases hce : c = e
                · rw [if_pos hce] at h
                  by_cases hst2 : st2 = []
                  · rw [if_pos hst2] at h
                    have hres := ScanRes.balanced.inj h
                    exact ⟨[c], rest, by rw [← hres], rfl⟩
                  · rw [if_neg hst2] at h
                    obtain ⟨w, r2, hres, hcs⟩ := ih st2 none esc (acc ++ [c]) res h
                    exact ⟨c :: w, r2, by rw [hres]; simp, by rw [hcs]; rfl⟩
                · rw [if_neg hce] at h
                  exact ScanRes.noConfusion h
            · have hplain : plainChar c := by
                push_neg at h1 h4
                exact ⟨h1.1, h1.2, h2, h3, h4.1, h4.2⟩
              rw [scan_plain hplain] at h
              obtain ⟨w, r2, hres, hcs⟩ := ih st none esc (acc ++ [c]) res h
              exact ⟨c :: w, r2, by rw [hres]; simp, by rw [hcs]; rfl⟩

/-!
The trailing-comma repair: on a text whose only comma-before-closer is
the trailing one, the single `re.sub` pass deletes exactly that comma.
-/

theorem mem_tails_self (l : List Char) : l ∈ l.tails := by
  cases l with
  | nil => simp
  | cons a t =>
    rw [List.tails_cons]
    exact List.mem_cons_self _ _

theorem dropWhile_cons_eq {p : Char → Bool} {c : Char} {w : List Char} :
    ∀ {b : List Char}, b.dropWhile p = c :: w → ∀ X, (b ++ X).dropWhile p = c :: (w ++ X) := by
  intro b
  induction b with
  | nil => intro h X; exact absurd h (by simp)
  | cons d t ih =>
    intro h X
    by_cases hp : p d
    · rw [List.dropWhile_cons, if_pos hp] at h
      rw [List.cons_append, List.dropWhile_cons, if_pos hp]
      exact ih h X
    · rw [List.dropWhile_cons, if_neg hp] at h
      obtain ⟨h1, h2⟩ := List.cons.inj h
      rw [List.cons_append, List.dropWhile_cons, if_neg hp, h1, h2]

theorem cleanAux_no_repair :
    ∀ u : List Char,
      (∀ b, (',' :: b) ∈ u.tails →
        ∃ c w, b.dropWhile pyWs = c :: w ∧ closerChar c = false) →
      cleanAux false (u ++ [',', ']']) = u ++ [']'] := by
  intro u
  induction u with
  | nil => intro _; rfl
  | cons d t ih =>
    intro hu
    have hu2 : ∀ b, (',' :: b) ∈ t.tails →
        ∃ c w, b.dropWhile pyWs = c :: w ∧ closerChar c = false := by
      intro b hb
      refine hu b ?_
      rw [List.tails_cons]
      exact List.mem_cons_of_mem _ hb
    rw [List.cons_append]
    by_cases hd : d = ','
    · obtain ⟨c, w, hdw, hcl⟩ := hu t (by rw [hd]; exact mem_tails_self _)
      have hma : matchAhead (t ++ [',', ']']) = false := by
        rw [matchAhead.eq_def, dropWhile_cons_eq hdw]
        exact hcl
      rw [show cleanAux false (d :: (t ++ [',', ']']))
          = if d = ',' ∧ matchAhead (t ++ [',', ']']) then cleanAux true (t ++ [',', ']'])
            else d :: cleanAux false (t ++ [',', ']']) from rfl,
        if_neg (by simp [hma]), ih hu2]
      rfl
    · rw [show cleanAux false (d :: (t ++ [',', ']']))
          = if d = ',' ∧ matchAhead (t ++ [',', ']']) then cleanAux true (t ++ [',', ']'])
            else d :: cleanAux false (t ++ [',', ']']) from rfl,
        if_neg (by simp [hd]), ih hu2]
      rfl

theorem cleanPass_arr_comma {inner : List Char} (hn : noBadComma ('[' :: inner) = true) :
    cleanPass ('[' :: inner ++ [',', ']']) = '[' :: inner ++ [']'] := by
  have hu : ∀ b, (',' :: b) ∈ ('[' :: inner).tails →
      ∃ c w, b.dropWhile pyWs = c :: w ∧ closerChar c = false := by
    intro b hb
    rw [noBadComma, List.all_eq_true] at hn
    have h2 : (match (b.dropWhile pyWs).head? with
        | some c => !closerChar c
        | none => false) = true := hn (',' :: b) hb
    cases hd : b.dropWhile pyWs with
    | nil =>
      rw [show (b.dropWhile pyWs).head? = none by rw [hd]; rfl] at h2
      have h3 : false = true := h2
      exact Bool.noConfusion h3
    | cons c w =>
      rw [show (b.dropWhile pyWs).head? = some c by rw [hd]; rfl] at h2
      have h3 : (!closerChar c) = true := h2
      exact ⟨c, w, rfl, by simpa using h3⟩
  exact cleanAux_no_repair ('[' :: inner) hu

theorem parseV_arr_rb {inner : List Char} {l : List Json}
    (harr : jsonLoads ('[' :: inner ++ [']']) = some (Json.arr l)) (g : Nat) (q : List Char)
    (hg : inner.length + 1 < g) :
    parseV (g + 1) ('[' :: (inner ++ ']' :: q)) = some (Json.arr l, q) := by
  rw [parseV_succ_open]
  rcases arr_text_struct harr with ⟨hws, hleq⟩ |
    ⟨twI, yE, hin, htw, hyN, ⟨cE, rest0, hyEh, hcE⟩, hsucc, hfail⟩
  · rw [skipWs_ws_append hws, skipWs_cons_of_not (by decide), hleq]
    rfl
  · rw [hin]
    have hskip : skipWs ((twI ++ yE) ++ (']' :: q)) = yE ++ (']' :: q) := by
      rw [List.append_assoc, skipWs_ws_append htw, hyEh]
      simp only [List.cons_append]
      rw [skipWs_cons_of_not (startChar_not_ws hcE), ← List.cons_append, ← hyEh]
    rw [show (twI ++ yE) ++ ']' :: q = (twI ++ yE) ++ (']' :: q) from rfl, hskip]
    have hylen : yE.length ≤ inner.length := by
      rw [hin]
      simp
    split
    · rename_i r3 heq
      rw [hyEh] at heq
      simp only [List.cons_append] at heq
      exact absurd (List.cons.inj heq).1 (startChar_ne_rb hcE)
    · rw [hsucc g q (by omega)]
      rfl

theorem jsonLoads_arr_q_none {inner : List Char} {l : List Json}
    (harr : jsonLoads ('[' :: inner ++ [']']) = some (Json.arr l)) {q : List Char}
    (hq : skipWs q ≠ []) : jsonLoads (('[' :: inner ++ [']']) ++ q) = none := by
  rw [show ('[' :: inner ++ [']']) ++ q = '[' :: (inner ++ ']' :: q) by simp,
    jsonLoads_head_nonws (by decide),
    show ('[' :: (inner ++ ']' :: q)).length + 1 = (inner ++ ']' :: q).length + 1 + 1 by simp,
    parseV_arr_rb harr ((inner ++ ']' :: q).length + 1) q (by simp)]
  dsimp only
  rw [if_neg hq]

/-- C5: the extractor never conjures structure out of thin air: whatever
value it returns was parsed in full by `json.loads` from one contiguous
slice of the stripped text, either verbatim or after the one-pass
trailing-comma repair.  (The claim's stronger assertion — `None` on every
text with unbalanced brackets — is refuted by `claim_C5_counterexample`.) -/
theorem claim_C5 (s : String) (v : Json) (h : extract_json_from_text s = some v) :
    ∃ x cs y, pyStrip (stripFences s.data) = x ++ cs ++ y ∧
      (jsonLoads cs = some v ∨ jsonLoads (cleanPass cs) = some v) := by
  unfold extract_json_from_text extractL at h
  by_cases hnil : s.data = []
  · rw [if_pos hnil] at h
    exact Option.noConfusion h
  · rw [if_neg hnil] at h
    simp only [extractCore] at h
    cases hjl : jsonLoads (pyStrip (stripFences s.data)) with
    | some v0 =>
      rw [hjl] at h
      have hv : v0 = v := Option.some.inj h
      exact ⟨[], pyStrip (stripFences s.data), [], by simp, Or.inl (by rw [hjl, hv])⟩
    | none =>
      rw [hjl] at h
      cases hsp : splitAtStart (pyStrip (stripFences s.data)) with
      | none => rw [hsp] at h; exact Option.noConfusion h
      | some pr =>
        rw [hsp] at h
        obtain ⟨pre, scanPart⟩ := pr
        have hts := splitAtStart_some_split hsp
        dsimp only at h
        cases hscan : scanLoop scanPart [] none false [] with
        | balanced cand =>
          rw [hscan] at h
          dsimp only at h
          obtain ⟨w, rest2, hres, hcs⟩ := scan_balanced_prefix scanPart [] none false [] cand hscan
          have hcw : cand = w := by simpa using hres
          refine ⟨pre, cand, rest2, by rw [hts, hcs, hcw]; simp, ?_⟩
          simp only [tryCand] at h
          cases hj1 : jsonLoads cand with
          | some vv =>
            rw [hj1] at h
            have hvv : vv = v := Option.some.inj h
            exact Or.inl (congrArg some hvv)
          | none =>
            rw [hj1] at h
            exact Or.inr h
        | noBal =>
          rw [hscan] at h
          dsimp only at h
          unfold fallbackSlice at h
          cases hfi : (pyStrip (stripFences s.data)).findIdx? (· = '[') with
          | none => rw [hfi] at h; exact Option.noConfusion h
          | some si =>
            rw [hfi] at h
            cases hri : (pyStrip (stripFences s.data)).reverse.findIdx? (· = ']') with
            | none => rw [hri] at h; exact Option.noConfusion h
            | some rIdx =>
              rw [hri] at h
              dsimp only at h
              by_cases hlt : si < (pyStrip (stripFences s.data)).length - 1 - rIdx
              · rw [if_pos hlt] at h
                refine ⟨(pyStrip (stripFences s.data)).take si,
                  ((pyStrip (stripFences s.data)).drop si).take
                    ((pyStrip (stripFences s.data)).length - 1 - rIdx + 1 - si),
                  ((pyStrip (stripFences s.data)).drop si).drop
                    ((pyStrip (stripFences s.data)).length - 1 - rIdx + 1 - si),
                  by simp, ?_⟩
                simp only [tryCand] at h
                cases hj1 : jsonLoads (((pyStrip (stripFences s.data)).drop si).take
                    ((pyStrip (stripFences s.data)).length - 1 - rIdx + 1 - si)) with
                | some vv =>
                  rw [hj1] at h
                  have hvv : vv = v := Option.some.inj h
                  exact Or.inl (congrArg some hvv)
                | none =>
                  rw [hj1] at h
                  exact Or.inr h
              · rw [if_neg hlt] at h
                exact Option.noConfusion h

/-- C5 counterexample: the input `{[1,2]` has an unmatched `{` (one
opening brace, no closing), yet the extractor does not return the
failure value — the scan breaks, and the greedy first-`[`-to-last-`]`
fallback recovers `[1, 2]` from a fragment. -/
theorem claim_C5_counterexample :
    ("\x7b[1,2]".data.count obChar = 1 ∧ "\x7b[1,2]".data.count cbChar = 0) ∧
    extract_json_from_text "\x7b[1,2]" = some (Json.arr [Json.num 1, Json.num 2]) :=
  ⟨by decide, by rfl⟩

theorem claim_C5_witness :
    ∃ x cs y, pyStrip (stripFences "\x7b[1,2]".data) = x ++ cs ++ y ∧
      (jsonLoads cs = some (Json.arr [Json.num 1, Json.num 2]) ∨
        jsonLoads (cleanPass cs) = some (Json.arr [Json.num 1, Json.num 2])) :=
  claim_C5 "\x7b[1,2]" (Json.arr [Json.num 1, Json.num 2]) (by rfl)

/-- C6: on a text whose bracketed part is a well-formed JSON array except
for one trailing comma before its `]` (prose before it free of brackets,
quotes and value-start characters; no other comma sits before a closing
bracket), the extractor returns exactly the array with the comma removed:
the direct parse fails, the scan yields the bracketed span, the parse of
the span fails, and the repair regex deletes exactly the one comma. -/
theorem claim_C6 (s : String) (p inner q : List Char) (l : List Json)
    (hsp : pyStrip (stripFences s.data) = p ++ ('[' :: inner ++ [',', ']']) ++ q)
    (harr : jsonLoads ('[' :: inner ++ [']']) = some (Json.arr l))
    (hnb : noBadComma ('[' :: inner) = true)
    (hp1 : ∀ c ∈ p, startBracket c = false)
    (hp2 : ∀ c, p.head? = some c →
      wsChar c = false ∧ c ≠ '"' ∧ c ≠ '[' ∧ c ≠ obChar ∧ c ≠ 't' ∧ c ≠ 'f' ∧
        c ≠ 'n' ∧ c ≠ '-' ∧ c.isDigit = false)
    (hs0 : s.data ≠ []) :
    extract_json_from_text s = some (Json.arr l) := by
  unfold extract_json_from_text extractL
  rw [if_neg hs0, hsp]
  simp only [extractCore]
  have hdirect : jsonLoads (p ++ ('[' :: inner ++ [',', ']']) ++ q) = none := by
    cases p with
    | nil =>
      rw [show ([] : List Char) ++ ('[' :: inner ++ [',', ']']) ++ q
          = '[' :: inner ++ ',' :: ']' :: q by simp]
      exact jsonLoads_trailing_comma_none harr q
    | cons c p0 =>
      obtain ⟨hws, h1, h2, h3, h4, h5, h6, h7, h8⟩ := hp2 c rfl
      rw [show (c :: p0) ++ ('[' :: inner ++ [',', ']']) ++ q
          = c :: (p0 ++ ('[' :: inner ++ [',', ']']) ++ q) by simp]
      exact jsonLoads_prose_none _ hws h1 h2 h3 h4 h5 h6 h7 h8
  rw [hdirect]
  dsimp only
  rw [show p ++ ('[' :: inner ++ [',', ']']) ++ q
      = p ++ '[' :: (inner ++ [',', ']'] ++ q) by simp,
    splitAtStart_append hp1 (by decide) (inner ++ [',', ']'] ++ q)]
  dsimp only
  rw [show ('[' : Char) :: (inner ++ [',', ']'] ++ q)
      = ('[' :: inner ++ [',', ']']) ++ q by simp,
    scan_arr_comma_balanced harr q]
  dsimp only
  simp only [tryCand]
  rw [jsonLoads_trailing_comma_none harr []]
  dsimp only
  rw [cleanPass_arr_comma hnb]
  exact harr

/-- C6 counterexample: `note {y} [1, 2,]` contains a single well-formed
JSON array up to its trailing comma (`[1, 2]` is valid JSON), yet the
extractor returns the failure value: the scan starts at the `{` of the
prose, balances the span `{y}`, both parse attempts on it fail, and the
balanced branch returns without reaching the array. -/
theorem claim_C6_counterexample :
    jsonLoads "[1, 2]".data = some (Json.arr [Json.num 1, Json.num 2]) ∧
    extract_json_from_text "note \x7by\x7d [1, 2,]" = none :=
  ⟨by rfl, by rfl⟩

theorem claim_C6_witness :
    extract_json_from_text "Sure! ```json\n[1, 2, 3,]\n```"
      = some (Json.arr [Json.num 1, Json.num 2, Json.num 3]) :=
  claim_C6 "Sure! ```json\n[1, 2, 3,]\n```" "Sure! \n".data "1, 2, 3".data []
    [Json.num 1, Json.num 2, Json.num 3]
    (by rfl) (by rfl) (by rfl) (by decide)
    (fun c hc => by
      have h2 : 'S' = c := Option.some.inj hc
      rw [← h2]
      exact ⟨by decide, by decide, by decide, by decide, by decide, by decide, by decide,
        by decide, by decide⟩)
    (by decide)

/-- C7: on a text that is a valid JSON array (its text running from `[`
to `]`), possibly fence-wrapped and surrounded by prose, the extractor
returns exactly that array — provided the leading prose contains no
opening bracket or brace and starts with an ordinary prose character.
(Unrestricted prose refutes the claim: see `claim_C7_counterexample`.) -/
theorem claim_C7 (s : String) (p inner q : List Char) (l : List Json)
    (hsp : pyStrip (stripFences s.data) = p ++ ('[' :: inner ++ [']']) ++ q)
    (harr : jsonLoads ('[' :: inner ++ [']']) = some (Json.arr l))
    (hp1 : ∀ c ∈ p, startBracket c = false)
    (hp2 : ∀ c, p.head? = some c →
      wsChar c = false ∧ c ≠ '"' ∧ c ≠ '[' ∧ c ≠ obChar ∧ c ≠ 't' ∧ c ≠ 'f' ∧
        c ≠ 'n' ∧ c ≠ '-' ∧ c.isDigit = false)
    (hs0 : s.data ≠ []) :
    extract_json_from_text s = some (Json.arr l) := by
  unfold extract_json_from_text extractL
  rw [if_neg hs0, hsp]
  simp only [extractCore]
  cases p with
  | nil =>
    simp only [List.nil_append]
    by_cases hq : skipWs q = []
    · rw [jsonLoads_ws_append harr (all_ws_of_skipWs_nil hq)]
    · rw [jsonLoads_arr_q_none harr hq]
      dsimp only
      rw [show ('[' :: inner ++ [']']) ++ q = '[' :: (inner ++ [']'] ++ q) by simp,
        show splitAtStart ('[' :: (inner ++ [']'] ++ q))
          = some ([], '[' :: (inner ++ [']'] ++ q)) by simp [splitAtStart, startBracket]]
      dsimp only
      rw [show ('[' : Char) :: (inner ++ [']'] ++ q) = ('[' :: inner ++ [']']) ++ q by simp,
        scan_arr_balanced harr q]
      dsimp only
      simp only [tryCand]
      rw [harr]
  | cons c p0 =>
    obtain ⟨hws, h1, h2, h3, h4, h5, h6, h7, h8⟩ := hp2 c rfl
    rw [show (c :: p0) ++ ('[' :: inner ++ [']']) ++ q
        = c :: (p0 ++ ('[' :: inner ++ [']']) ++ q) by simp,
      jsonLoads_prose_none _ hws h1 h2 h3 h4 h5 h6 h7 h8]
    dsimp only
    rw [show c :: (p0 ++ ('[' :: inner ++ [']']) ++ q)
        = (c :: p0) ++ '[' :: (inner ++ [']'] ++ q) by simp,
      splitAtStart_append hp1 (by decide) (inner ++ [']'] ++ q)]
    dsimp only
    rw [show ('[' : Char) :: (inner ++ [']'] ++ q) = ('[' :: inner ++ [']']) ++ q by simp,
      scan_arr_balanced harr q]
    dsimp only
    simp only [tryCand]
    rw [harr]

/-- C7 counterexample: `note {x} [1, 2]` is a valid JSON array surrounded
by prose, but the prose's braces derail the extractor: `json.loads` fails
on the full text, the scan starts at the `{`, balances the span `{x}`,
both parses of it fail, and the function returns the failure value
instead of the array. -/
theorem claim_C7_counterexample :
    jsonLoads "[1, 2]".data = some (Json.arr [Json.num 1, Json.num 2]) ∧
    extract_json_from_text "note \x7bx\x7d [1, 2]" = none :=
  ⟨by rfl, by rfl⟩

theorem claim_C7_witness :
    extract_json_from_text "Answer: ```JSON\n[7]\n``` thanks"
      = some (Json.arr [Json.num 7]) :=
  claim_C7 "Answer: ```JSON\n[7]\n``` thanks" "Answer: \n".data "7".data "\n thanks".data
    [Json.num 7]
    (by rfl) (by rfl) (by decide)
    (fun c hc => by
      have h2 : 'A' = c := Option.some.inj hc
      rw [← h2]
      exact ⟨by decide, by decide, by decide, by decide, by decide, by decide, by decide,
        by decide, by decide⟩)
    (by decide)
